import Mathlib

/-!
# Verification of the `hmm` hidden-Markov-model module (src/hmm.py)

This file gives a shallow embedding of `src/hmm.py` and proves/refutes the
frozen claims about it.

Modelling conventions:

* Python floats are idealised as elements of an arbitrary linearly ordered
  commutative ring `R` (exact arithmetic; the source performs float
  arithmetic, whose rounding is outside the scope of these claims).
* The source works with log-space scores: it accumulates
  `p += math.log10(x)` and compares/maximises such sums.  Since `log10` is a
  strictly monotone bijection from the positive reals onto the reals, taking
  it term by term is an order isomorphism carrying products to sums.  We
  therefore represent a log-space score by the *product* of the probabilities
  whose logs the source adds: `p = 0.0` becomes `p = 1`,
  `p += math.log10(x)` becomes `p := p * x`, and every comparison, maximum,
  equality and sentinel in the claims transfers exactly.  A call
  `math.log10(x)` with `x ≤ 0` raises `ValueError` in Python; that guard is
  made explicit at every call site.
* Python dictionaries are association lists with unique keys (insertion
  updates in place, as `dict` assignment does); iteration order is the list
  order.  Python `None` used as a score/"unreachable" sentinel is `Option.none`;
  in Python 2, `None` compares smaller than every number, which is encoded in
  `optLtB` below.
* Fallible code returns `Except PyErr`: an uncaught Python exception
  (`KeyError`, `ValueError`, `TypeError`, `IndexError`) is `Except.error`.
-/

/-- The uncaught Python exceptions that the code in `src/hmm.py` can raise. -/
inductive PyErr where
  | keyError
  | valueError
  | typeError
  | indexError
deriving DecidableEq, Repr

variable {R : Type} [LinearOrderedCommRing R]

/-- Lookup in an association list modelling a Python `dict` keyed by strings
(first match; all dictionaries in this development have unique keys). -/
def dictGet (l : List (String × R)) (k : String) : Option R :=
  match l with
  | [] => none
  | e :: rest => if e.1 = k then some e.2 else dictGet rest k

/-- Mirrors the Python `state` class (src/hmm.py, lines 7-14): a named state
with its initial, emission, transition and termination probabilities. -/
structure state (R : Type) where
  name : String
  p_initial : R
  p_emission : List (String × R)
  p_transition : List (String × R)
  p_termination : R
deriving DecidableEq

/-- The `hmm` object: the fields assigned by `hmm.__init__`
(src/hmm.py, lines 50-61). -/
structure hmm (R : Type) where
  alphabet : List String
  terminal_state : Bool
  initial_states : List String
  terminating_states : List String
  states : List (String × state R)
deriving DecidableEq

/-- Python `dict` assignment `self.states[state.name] = state`: replace the
entry in place if the key exists, otherwise append. -/
def statesInsert (d : List (String × state R)) (k : String) (v : state R) :
    List (String × state R) :=
  match d with
  | [] => [(k, v)]
  | e :: rest => if e.1 = k then (k, v) :: rest else e :: statesInsert rest k v

/-- The body of the `for state in states` loop of `hmm.__init__`
(src/hmm.py, lines 55-61). -/
def initStep (m : hmm R) (s : state R) : hmm R :=
  { m with
    states := statesInsert m.states s.name s
    initial_states :=
      if 0 < s.p_initial then m.initial_states ++ [s.name] else m.initial_states
    terminal_state := if 0 < s.p_termination then true else m.terminal_state
    terminating_states :=
      if 0 < s.p_termination then m.terminating_states ++ [s.name]
      else m.terminating_states }

/-- `hmm.__init__(alphabet, states)` (src/hmm.py, lines 17-61). -/
def hmm.init (alphabet : List String) (sts : List (state R)) : hmm R :=
  sts.foldl initStep
    { alphabet := alphabet
      terminal_state := false
      initial_states := []
      terminating_states := []
      states := [] }

/-- Lookup in the association list behind `self.states`. -/
def statesGet (l : List (String × state R)) (k : String) : Option (state R) :=
  match l with
  | [] => none
  | e :: rest => if e.1 = k then some e.2 else statesGet rest k

/-- Python `self.states[name]` as a partial lookup. -/
def hmm.getState (m : hmm R) (k : String) : Option (state R) :=
  statesGet m.states k

/-- `self.states.keys()` in iteration order. -/
def hmm.stateNames (m : hmm R) : List String :=
  m.states.map (fun e => e.1)

/-- `hmm._p_emit` (src/hmm.py, lines 167-175): `None` for an unknown state,
otherwise the emission probability with absent symbols read as `0`. -/
def hmm.pEmit (m : hmm R) (s obs : String) : Option R :=
  match m.getState s with
  | none => none
  | some st => some ((dictGet st.p_emission obs).getD 0)

/-- `hmm._p_transition` (src/hmm.py, lines 177-185): `None` for an unknown
source state, otherwise the transition probability with absent targets read
as `0`. -/
def hmm.pTransition (m : hmm R) (a b : String) : Option R :=
  match m.getState a with
  | none => none
  | some st => some ((dictGet st.p_transition b).getD 0)

/-- `hmm._connected` (src/hmm.py, lines 187-205): there is an edge iff the
source state exists, the target is a key of its transition dictionary, and
the stored probability is strictly positive. -/
def hmm.connected (m : hmm R) (a b : String) : Bool :=
  match m.getState a with
  | none => false
  | some st =>
    match dictGet st.p_transition b with
    | none => false
    | some t => decide (0 < t)

section ConstructorFacts

lemma foldl_initStep_initial_states (sts : List (state R)) (m : hmm R) :
    (sts.foldl initStep m).initial_states =
      m.initial_states ++
        (sts.filter (fun s => decide (0 < s.p_initial))).map state.name := by
  induction sts generalizing m with
  | nil => simp
  | cons s rest ih =>
    simp only [List.foldl_cons, ih, List.filter_cons]
    by_cases h : 0 < s.p_initial
    · simp [initStep, h]
    · simp [initStep, h]

lemma foldl_initStep_terminating_states (sts : List (state R)) (m : hmm R) :
    (sts.foldl initStep m).terminating_states =
      m.terminating_states ++
        (sts.filter (fun s => decide (0 < s.p_termination))).map state.name := by
  induction sts generalizing m with
  | nil => simp
  | cons s rest ih =>
    simp only [List.foldl_cons, ih, List.filter_cons]
    by_cases h : 0 < s.p_termination
    · simp [initStep, h]
    · simp [initStep, h]

lemma foldl_initStep_terminal_state (sts : List (state R)) (m : hmm R) :
    (sts.foldl initStep m).terminal_state =
      (m.terminal_state || sts.any (fun s => decide (0 < s.p_termination))) := by
  induction sts generalizing m with
  | nil => simp
  | cons s rest ih =>
    simp only [List.foldl_cons, ih, List.any_cons]
    by_cases h : 0 < s.p_termination
    · simp [initStep, h]
    · simp [initStep, h]

end ConstructorFacts

/-- C7: after construction, `initial_states` is exactly the list of names of
the given states with `p_initial > 0`, `terminal_state` is true iff some
given state has `p_termination > 0`, and `terminating_states` is exactly the
list of names of the given states with `p_termination > 0`. -/
theorem constructor_derived_sets (alphabet : List String) (sts : List (state R)) :
    (hmm.init alphabet sts).initial_states =
      (sts.filter (fun s => decide (0 < s.p_initial))).map state.name ∧
    ((hmm.init alphabet sts).terminal_state = true ↔
      ∃ s ∈ sts, 0 < s.p_termination) ∧
    (hmm.init alphabet sts).terminating_states =
      (sts.filter (fun s => decide (0 < s.p_termination))).map state.name := by
  refine ⟨?_, ?_, ?_⟩
  · rw [hmm.init, foldl_initStep_initial_states]; rfl
  · rw [hmm.init, foldl_initStep_terminal_state]
    simp
  · rw [hmm.init, foldl_initStep_terminating_states]; rfl

/-- One `p += math.log10(x)` step: `math.log10` raises `ValueError` unless
`0 < x`; in the multiplicative embedding the sum of logs is a product. -/
def logStep (p x : R) : Except PyErr R :=
  if 0 < x then .ok (p * x) else .error .valueError

/-- The initial-or-transition factor of one iteration of the `hmm.score`
loop (src/hmm.py, lines 103-116): on the first iteration a zero `p_initial`
is the sentinel and otherwise `log10(p_initial)` is accumulated; later, an
absent transition key is the sentinel and otherwise `log10` of the stored
transition probability is accumulated. -/
def scoreStep1 (prev : Option (state R)) (p : R) (s : String) (cur : state R) :
    Except PyErr (Option R) :=
  match prev with
  | none =>
    if cur.p_initial = 0 then .ok none
    else (logStep p cur.p_initial).map some
  | some pv =>
    match dictGet pv.p_transition s with
    | none => .ok none
    | some t => (logStep p t).map some

/-- The `for i in range(len(seq_state))` loop of `hmm.score`
(src/hmm.py, lines 99-129); `prev` is `state_prev` (`none` on the first
iteration) and `p` the accumulated score. -/
def hmm.scoreAux (m : hmm R) :
    Option (state R) → R → List String → List String → Except PyErr (Option R)
  | _, p, [], _ => .ok (some p)
  | prev, p, s :: ss, obs =>
    match m.getState s with
    | none => .error .keyError
    | some cur =>
      match scoreStep1 prev p s cur with
      | .error e => .error e
      | .ok none => .ok none
      | .ok (some p1) =>
        match obs with
        | [] => .error .indexError
        | o :: os =>
          match dictGet cur.p_emission o with
          | none => .ok none
          | some em =>
            if em = 0 then .ok none
            else
              match logStep p1 em with
              | .error er => .error er
              | .ok p2 => m.scoreAux (some cur) p2 ss os

/-- `hmm.score` (src/hmm.py, lines 63-129). -/
def hmm.score (m : hmm R) (seq_state seq_observed : List String) :
    Except PyErr (Option R) :=
  if m.terminal_state then
    match seq_state.getLast? with
    | none => .error .indexError
    | some last =>
      if m.terminating_states.contains last then
        m.scoreAux none 1 seq_state seq_observed
      else .ok none
  else m.scoreAux none 1 seq_state seq_observed

instance {ε α : Type} [DecidableEq ε] [DecidableEq α] : DecidableEq (Except ε α) :=
  fun x y =>
    match x, y with
    | .error a, .error b =>
      if h : a = b then .isTrue (by rw [h]) else .isFalse (by simp [h])
    | .error _, .ok _ => .isFalse (fun hc => Except.noConfusion hc)
    | .ok _, .error _ => .isFalse (fun hc => Except.noConfusion hc)
    | .ok a, .ok b =>
      if h : a = b then .isTrue (by rw [h]) else .isFalse (by simp [h])

/-- Two-state model whose `S1 -> S2` transition edge is present with
probability exactly `0`. -/
def mZeroEdge : hmm ℤ :=
  hmm.init ["x"]
    [⟨"S1", 1, [("x", 1)], [("S2", 0)], 0⟩,
     ⟨"S2", 0, [("x", 1)], [], 0⟩]

/-- C4 (code bug): the docstring of `score` promises the `None` sentinel when
"the probability of transitioning from state[i] to state[i+1] is 0", but for
a transition entry that is *present* with probability exactly 0 the code
reaches `math.log10(0.0)` and raises `ValueError` instead. -/
theorem score_present_zero_transition_raises :
    dictGet (⟨"S1", 1, [("x", 1)], [("S2", 0)], 0⟩ : state ℤ).p_transition "S2"
        = some 0 ∧
    mZeroEdge.score ["S1", "S2"] ["x", "x"] = .error .valueError := by
  decide

lemma scoreAux_ok_some_known (m : hmm R) :
    ∀ (ss obs : List String) (prev : Option (state R)) (p v : R),
      m.scoreAux prev p ss obs = .ok (some v) → ∀ x ∈ ss, (m.getState x).isSome := by
  intro ss
  induction ss with
  | nil => intro obs prev p v h x hx; cases hx
  | cons s rest ih =>
    intro obs prev p v h x hx
    simp only [hmm.scoreAux] at h
    cases hgs : m.getState s with
    | none => rw [hgs] at h; cases h
    | some cur =>
      rw [hgs] at h
      dsimp only at h
      rcases List.mem_cons.mp hx with hxs | hxr
      · rw [hxs, hgs]; rfl
      · cases hs1 : scoreStep1 prev p s cur with
        | error e => rw [hs1] at h; cases h
        | ok o1 =>
          rw [hs1] at h
          cases o1 with
          | none => cases h
          | some p1 =>
            dsimp only at h
            cases obs with
            | nil => cases h
            | cons o os =>
              dsimp only at h
              cases hde : dictGet cur.p_emission o with
              | none => rw [hde] at h; cases h
              | some em =>
                rw [hde] at h
                dsimp only at h
                by_cases hem : em = 0
                · rw [if_pos hem] at h; cases h
                · rw [if_neg hem] at h
                  cases hls : logStep p1 em with
                  | error er => rw [hls] at h; cases h
                  | ok p2 =>
                    rw [hls] at h
                    exact ih os (some cur) p2 v h x hxr

lemma score_ok_some_known (m : hmm R) (ss obs : List String) (v : R)
    (h : m.score ss obs = .ok (some v)) : ∀ x ∈ ss, (m.getState x).isSome := by
  rw [hmm.score] at h
  by_cases ht : m.terminal_state = true
  · rw [if_pos ht] at h
    cases hgl : ss.getLast? with
    | none => rw [hgl] at h; cases h
    | some last =>
      rw [hgl] at h
      dsimp only at h
      by_cases hc : m.terminating_states.contains last = true
      · rw [if_pos hc] at h
        exact scoreAux_ok_some_known m ss obs none 1 v h
      · rw [if_neg hc] at h; cases h
  · rw [if_neg ht] at h
    exact scoreAux_ok_some_known m ss obs none 1 v h

/-- A model whose single state has `p_initial = 0`. -/
def mNoStart : hmm ℤ := hmm.init ["a"] [⟨"S1", 0, [("a", 1)], [], 0⟩]

/-- C9 counterexample: `seq_state` contains the unknown name `"X"`, yet
`score` returns the `None` sentinel, not a `KeyError`: the `p_initial == 0`
early return at position 0 fires before position 1 is ever looked up. -/
theorem score_unknown_state_counterexample :
    mNoStart.getState "X" = none ∧
    mNoStart.score ["S1", "X"] ["a", "a"] = .ok none := by decide

/-- C9 (amended): if some element of `seq_state` is not a known state name,
`score` never returns a number; and when the model has no implied terminal
state and the *first* element is unknown, the lookup is reached and `score`
raises `KeyError`.  (As stated the claim is false: an earlier invalidity can
return the sentinel before the unknown name is looked up, see
`score_unknown_state_counterexample`.) -/
theorem score_unknown_state_never_numeric (m : hmm R) :
    (∀ (ss obs : List String) (v : R), (∃ x ∈ ss, m.getState x = none) →
      m.score ss obs ≠ .ok (some v)) ∧
    (∀ (s : String) (ss obs : List String), m.terminal_state = false →
      m.getState s = none → m.score (s :: ss) obs = .error .keyError) := by
  constructor
  · rintro ss obs v ⟨x, hx, hnone⟩ h
    have hk := score_ok_some_known m ss obs v h x hx
    rw [hnone] at hk
    cases hk
  · intro s ss obs hterm hnone
    simp [hmm.score, hterm, hmm.scoreAux, hnone]

theorem score_unknown_state_never_numeric_witness :
    mNoStart.score ["X"] ["a"] = .error .keyError ∧
    mNoStart.score ["X", "S1"] ["a", "a"] ≠ .ok (some 5) :=
  ⟨(score_unknown_state_never_numeric mNoStart).2 "X" [] ["a"] (by decide)
      (by decide),
   (score_unknown_state_never_numeric mNoStart).1 ["X", "S1"] ["a", "a"] 5
      ⟨"X", by decide, by decide⟩⟩

/-- Model with one state that can terminate (`terminal_state` is true). -/
def mTermA : hmm ℤ := hmm.init ["a"] [⟨"A", 1, [("a", 1)], [("A", 1)], 1⟩]

/-- C10: on the empty input (both sequences empty, violating the spec's
`n ≥ 1` precondition) `score` returns the numeric score `1` (the
multiplicative rendering of log-probability `0.0`) when the model has no
implied terminal state, and raises `IndexError` (from `seq_state[-1]` on an
empty list) when `terminal_state` is true; the precondition itself is never
checked or reported. -/
theorem score_empty_input (m : hmm R) :
    (m.terminal_state = false → m.score [] [] = .ok (some 1)) ∧
    (m.terminal_state = true → m.score [] [] = .error .indexError) := by
  constructor <;> intro h <;> simp [hmm.score, h, hmm.scoreAux, List.getLast?]

theorem score_empty_input_witness :
    mNoStart.score ([] : List String) [] = .ok (some 1) ∧
    mTermA.score ([] : List String) [] = .error .indexError :=
  ⟨(score_empty_input mNoStart).1 (by decide), (score_empty_input mTermA).2 (by decide)⟩

/-- A trellis column: a Python dict from state name to score-or-`None`,
in key iteration order. -/
abbrev Col (R : Type) := List (String × Option R)

/-- Column 0 of the trellis (src/hmm.py, lines 229-239): `log10(p_initial) +
log10(p_emit)` guarded by the `p_init == 0.0 or p_emit == 0.0` sentinel
check; `math.log10` on a nonpositive number raises `ValueError`, and on the
(here impossible) `None` result of `_p_emit` raises `TypeError`. -/
def hmm.col0 (m : hmm R) (o : String) : Except PyErr (Col R) :=
  m.states.mapM (fun e =>
    match m.pEmit e.1 o with
    | none =>
      if e.2.p_initial = (0 : R) then .ok (e.1, (none : Option R))
      else if (0 : R) < e.2.p_initial then .error .typeError
      else .error .valueError
    | some pe =>
      if e.2.p_initial = (0 : R) ∨ pe = 0 then .ok (e.1, none)
      else if (0 : R) < e.2.p_initial then
        if 0 < pe then .ok (e.1, some (e.2.p_initial * pe))
        else .error .valueError
      else .error .valueError)

/-- One update of the running `best` in the inner maximisation loop of
`hmm.trellis` (src/hmm.py, lines 248-258), for target state `sName` with
emission value `pe`: unreachable prior states are skipped, non-connected
prior states are skipped, and otherwise
`s = prev_prob + log10(p_emit) + log10(p_tran)` is taken when larger. -/
def hmm.bestStep (m : hmm R) (sName : String) (pe : Option R) (best : Option R)
    (pr : String × Option R) : Except PyErr (Option R) :=
  match pr.2 with
  | none => .ok best
  | some pp =>
    if m.connected pr.1 sName then
      match pe with
      | none => .error .typeError
      | some e =>
        if 0 < e then
          match m.pTransition pr.1 sName with
          | none => .error .typeError
          | some t =>
            if 0 < t then
              .ok (match best with
                   | none => some (pp * e * t)
                   | some b => if b < pp * e * t then some (pp * e * t) else some b)
            else .error .valueError
        else .error .valueError
    else .ok best

/-- Column `i > 0` of the trellis (src/hmm.py, lines 241-259). -/
def hmm.innerCol (m : hmm R) (prior : Col R) (o : String) : Except PyErr (Col R) :=
  m.states.mapM (fun e =>
    if m.pEmit e.1 o = some 0 then .ok (e.1, (none : Option R))
    else
      match prior.foldlM (m.bestStep e.1 (m.pEmit e.1 o)) none with
      | .error er => .error er
      | .ok best => .ok (e.1, best))

/-- The columns after the first (the `else` branch of the loop in
`hmm.trellis`), computed left to right, each from the prior column. -/
def hmm.trellisCols (m : hmm R) : Col R → List String → Except PyErr (List (Col R))
  | _, [] => .ok []
  | prior, o :: os =>
    match m.innerCol prior o with
    | .error er => .error er
    | .ok c =>
      match m.trellisCols c os with
      | .error er => .error er
      | .ok rest => .ok (c :: rest)

/-- The trellis before the final-column terminal adjustment
(src/hmm.py, lines 222-259). -/
def hmm.trellisRaw (m : hmm R) : List String → Except PyErr (List (Col R))
  | [] => .ok []
  | o :: os =>
    match m.col0 o with
    | .error er => .error er
    | .ok c =>
      match m.trellisCols c os with
      | .error er => .error er
      | .ok rest => .ok (c :: rest)

/-- The final-column adjustment for one state (src/hmm.py, lines 261-269):
states outside `terminating_states` are forced to `None`; for a terminating
state the code runs `probs[s] += log10(self.states[s].p_termination)`,
evaluating the `log10` first (`ValueError` when `p_termination ≤ 0`) and
then raising `TypeError` when `probs[s]` is `None`. -/
def hmm.adjustEntry (m : hmm R) (entry : String × Option R) :
    Except PyErr (String × Option R) :=
  if m.terminating_states.contains entry.1 then
    match m.getState entry.1 with
    | none => .error .keyError
    | some st =>
      if 0 < st.p_termination then
        match entry.2 with
        | none => .error .typeError
        | some pv => .ok (entry.1, some (pv * st.p_termination))
      else .error .valueError
  else .ok (entry.1, none)

/-- `hmm.trellis` (src/hmm.py, lines 207-274): the raw columns, with the
terminal-state adjustment applied to the last column (the adjustment runs
inside the final loop iteration, after that column's scores are computed,
so applying it after all columns are built is the same computation). -/
def hmm.trellis (m : hmm R) (observed : List String) : Except PyErr (List (Col R)) :=
  match m.trellisRaw observed with
  | .error er => .error er
  | .ok t =>
    if m.terminal_state then
      match t.getLast? with
      | none => .ok t
      | some c =>
        match c.mapM (m.adjustEntry) with
        | .error er => .error er
        | .ok cAdj => .ok (t.dropLast ++ [cAdj])
    else .ok t

/-- Python 2 `<` on column values, where `None` compares smaller than every
number. -/
def optLtB (a b : Option R) : Bool :=
  match a, b with
  | none, none => false
  | none, some _ => true
  | some _, none => false
  | some x, some y => decide (x < y)

/-- Python `max(probs, key=probs.get)` over a column: the first key with
maximal value (with its value), `ValueError` on an empty sequence. -/
def pyMaxKey (c : Col R) : Except PyErr (String × Option R) :=
  match c with
  | [] => .error .valueError
  | e :: rest => .ok (rest.foldl (fun b x => if optLtB b.2 x.2 then x else b) e)

/-- The survivor filter of the Viterbi backward pass (src/hmm.py, lines
305-309): drop `None`-valued states and states without an edge to the chosen
next state.  (The source deletes the other entries from the column dict in
place; each column is consumed exactly once, so the filter is the same
computation.) -/
def hmm.survivors (m : hmm R) (nxt : String) (c : Col R) : Col R :=
  c.filter (fun e => e.2.isSome && m.connected e.1 nxt)

/-- The backward pass of `hmm.viterbi_path` (src/hmm.py, lines 300-311),
processing the earlier columns last-to-first. -/
def hmm.viterbiBack (m : hmm R) : String → List (Col R) → Except PyErr (List String)
  | _, [] => .ok []
  | nxt, c :: rest =>
    match pyMaxKey (m.survivors nxt c) with
    | .error er => .error er
    | .ok best =>
      match m.viterbiBack best.1 rest with
      | .error er => .error er
      | .ok tl => .ok (best.1 :: tl)

/-- `hmm.viterbi_path` (src/hmm.py, lines 276-314). -/
def hmm.viterbi_path (m : hmm R) (observed : List String) :
    Except PyErr (List String × Option R) :=
  match m.trellis observed with
  | .error er => .error er
  | .ok t =>
    match t.getLast? with
    | none => .error .indexError
    | some lastCol =>
      match pyMaxKey lastCol with
      | .error er => .error er
      | .ok best =>
        match m.viterbiBack best.1 t.dropLast.reverse with
        | .error er => .error er
        | .ok backs => .ok ((best.1 :: backs).reverse, best.2)

/-- `itertools.product(self.states.keys(), repeat=n)` in iteration order. -/
def seqProduct (l : List String) : Nat → List (List String)
  | 0 => [[]]
  | n + 1 => l.flatMap (fun x => (seqProduct l n).map (fun q => x :: q))

/-- The best-so-far update of `hmm.enumerate` (src/hmm.py, lines 156-163). -/
def enumStep (best : Option (List String × R)) (seq : List String)
    (s : Option R) : Option (List String × R) :=
  match s with
  | none => best
  | some v =>
    match best with
    | none => some (seq, v)
    | some b => if b.2 < v then some (seq, v) else some b

/-- The labelled best (sequence, score) pair tracked by `hmm.enumerate`
(src/hmm.py, lines 131-165); the printing is elided, while the fold over the
full Cartesian product and the `score` calls (with any exception
propagating) are kept. -/
def hmm.enumBest (m : hmm R) (observed : List String) :
    Except PyErr (Option (List String × R)) :=
  (seqProduct m.stateNames observed.length).foldlM
    (fun best seq =>
      match m.score seq observed with
      | .error er => .error er
      | .ok s => .ok (enumStep best seq s))
    none

/-- A one-state model that can only emit `"x"`. -/
def mOnlyX : hmm ℤ := hmm.init ["x", "y"] [⟨"A", 1, [("x", 1)], [], 0⟩]

/-- C5 (code bug): on the observation `["x", "y"]` no path explains the
observation - the last trellis column is entirely unreachable - and
`viterbi_path` raises `ValueError` (from `max` over the emptied candidate
set in the backward pass) instead of surfacing a reported, recoverable
"no valid explanation exists" condition. -/
theorem viterbi_unreachable_observation_crashes :
    mOnlyX.trellis ["x", "y"] = .ok [[("A", some 1)], [("A", none)]] ∧
    mOnlyX.viterbi_path ["x", "y"] = .error .valueError := by decide

/-- A one-state model with an implied terminal state that can only emit
`"x"`. -/
def mTermOnlyX : hmm ℤ := hmm.init ["x", "y"] [⟨"A", 1, [("x", 1)], [("A", 1)], 1⟩]

/-- C6 (code bug): with an implied terminal state, when a terminating state
is unreachable in the last column (here on observation `["y"]`), the
adjustment executes `None += log10(p_termination)` and aborts `trellis` with
`TypeError` instead of leaving the entry unreachable. -/
theorem trellis_terminal_adjustment_crashes :
    mTermOnlyX.trellisRaw ["y"] = .ok [[("A", none)]] ∧
    mTermOnlyX.trellis ["y"] = .error .typeError := by decide

/-- `hmm.score` with the model state threaded through: the method reads the
model and assigns to no attribute of `self`, so the model component of the
result is the input model. -/
def hmm.score_st (m : hmm R) (ss so : List String) :
    Except PyErr (Option R) × hmm R :=
  (m.score ss so, m)

/-- `hmm.trellis` with the model state threaded through (reads only). -/
def hmm.trellis_st (m : hmm R) (observed : List String) :
    Except PyErr (List (Col R)) × hmm R :=
  (m.trellis observed, m)

/-- `hmm.viterbi_path` with the model state threaded through: the backward
pass mutates only the per-call trellis columns (`del probs[state]`, modelled
by `hmm.survivors`), never an attribute of `self`. -/
def hmm.viterbi_path_st (m : hmm R) (observed : List String) :
    Except PyErr (List String × Option R) × hmm R :=
  (m.viterbi_path observed, m)

/-- The computation of `hmm.enumerate` with the model state threaded through
(reads only). -/
def hmm.enumBest_st (m : hmm R) (observed : List String) :
    Except PyErr (Option (List String × R)) × hmm R :=
  (m.enumBest observed, m)

/-- C8: `score`, `trellis`, `viterbi_path` and `enumerate` leave the model
observably unchanged - every field (`alphabet`, `states`, `initial_states`,
`terminal_state`, `terminating_states`) after any call equals its value
before; the mutation in the Viterbi backward reconstruction touches only the
per-call trellis. -/
theorem operations_leave_model_unchanged (m : hmm R)
    (ss so obs1 obs2 obs3 : List String) :
    (m.score_st ss so).2 = m ∧ (m.trellis_st obs1).2 = m ∧
    (m.viterbi_path_st obs2).2 = m ∧ (m.enumBest_st obs3).2 = m :=
  ⟨rfl, rfl, rfl, rfl⟩

/-- Pointwise option multiplication: the score algebra in which `none`
("invalid / unreachable") absorbs. -/
def omul (x y : Option R) : Option R :=
  match x, y with
  | some a, some b => some (a * b)
  | _, _ => none

/-- The maximum of two column values in the Python 2 order (`none` at the
bottom; on ties the left argument, though the value is then the same). -/
def omax (x y : Option R) : Option R :=
  if optLtB x y then y else x

/-- The maximum value in a list of column values (`none` when the list is
empty or all `none`). -/
def foldMax (l : List (Option R)) : Option R :=
  l.foldr (fun x b => omax x b) none

/-- The Python 2 order on column values as a proposition. -/
def oLe (x y : Option R) : Prop :=
  match x, y with
  | none, _ => True
  | some _, none => False
  | some a, some b => a ≤ b

lemma omul_none_left (y : Option R) : omul none y = none := rfl

lemma omul_none_right (x : Option R) : omul x none = none := by
  cases x <;> rfl

lemma omul_some_one (x : Option R) : omul x (some 1) = x := by
  cases x <;> simp [omul]

lemma omul_assoc (x y z : Option R) : omul (omul x y) z = omul x (omul y z) := by
  cases x <;> cases y <;> cases z <;> simp [omul, mul_assoc]

lemma omul_comm (x y : Option R) : omul x y = omul y x := by
  cases x <;> cases y <;> simp [omul, mul_comm]

lemma omax_none_left (y : Option R) : omax none y = y := by
  cases y <;> rfl

lemma omax_none_right (x : Option R) : omax x none = x := by
  cases x <;> rfl

lemma omax_some (a b : R) : omax (some a) (some b) = if a < b then some b else some a := by
  simp [omax, optLtB]

lemma omax_comm (x y : Option R) : omax x y = omax y x := by
  cases x with
  | none => rw [omax_none_left, omax_none_right]
  | some a =>
    cases y with
    | none => rw [omax_none_left, omax_none_right]
    | some b =>
      rw [omax_some, omax_some]
      by_cases hab : a < b
      · rw [if_pos hab, if_neg (not_lt_of_gt hab)]
      · by_cases hba : b < a
        · rw [if_neg hab, if_pos hba]
        · rw [if_neg hab, if_neg hba,
            le_antisymm (not_lt.mp hab) (not_lt.mp hba)]

lemma omax_assoc (x y z : Option R) : omax (omax x y) z = omax x (omax y z) := by
  cases x with
  | none => rw [omax_none_left, omax_none_left]
  | some a =>
    cases y with
    | none => rw [omax_none_left, omax_none_right]
    | some b =>
      cases z with
      | none => rw [omax_none_right, omax_none_right]
      | some c =>
        rw [omax_some b c]
        by_cases hab : a < b
        · rw [omax_some a b, if_pos hab]
          by_cases hbc : b < c
          · rw [if_pos hbc, omax_some b c, if_pos hbc, omax_some a c,
              if_pos (lt_trans hab hbc)]
          · rw [if_neg hbc, omax_some b c, if_neg hbc, omax_some a b, if_pos hab]
        · rw [omax_some a b, if_neg hab]
          by_cases hbc : b < c
          · rw [if_pos hbc, omax_some a c]
          · rw [if_neg hbc, omax_some a b, if_neg hab, omax_some a c,
              if_neg (not_lt.mpr (le_trans (not_lt.mp hbc) (not_lt.mp hab)))]

lemma foldMax_nil : (foldMax ([] : List (Option R))) = none := rfl

lemma foldMax_cons (x : Option R) (l : List (Option R)) :
    foldMax (x :: l) = omax x (foldMax l) := rfl

lemma foldMax_append (l r : List (Option R)) :
    foldMax (l ++ r) = omax (foldMax l) (foldMax r) := by
  induction l with
  | nil => simp [foldMax_nil, omax_none_left]
  | cons x xs ih => simp [foldMax_cons, ih, omax_assoc]

lemma foldMax_flatMap {α : Type} (l : List α) (f : α → List (Option R)) :
    foldMax (l.flatMap f) = foldMax (l.map (fun a => foldMax (f a))) := by
  induction l with
  | nil => rfl
  | cons x xs ih => simp [List.flatMap_cons, foldMax_append, ih, foldMax_cons]

lemma oLe_refl (x : Option R) : oLe x x := by
  cases x <;> simp [oLe]

lemma oLe_trans {x y z : Option R} (h1 : oLe x y) (h2 : oLe y z) : oLe x z := by
  cases x <;> cases y <;> cases z <;> simp_all [oLe]
  exact le_trans h1 h2

lemma oLe_antisymm {x y : Option R} (h1 : oLe x y) (h2 : oLe y x) : x = y := by
  cases x <;> cases y <;> simp_all [oLe]
  exact le_antisymm h1 h2

lemma oLe_omax_left (x y : Option R) : oLe x (omax x y) := by
  cases x with
  | none => exact trivial
  | some a =>
    cases y with
    | none => rw [omax_none_right]; exact oLe_refl _
    | some b =>
      rw [omax_some]
      by_cases h : a < b
      · rw [if_pos h]; exact le_of_lt h
      · rw [if_neg h]; exact oLe_refl _

lemma oLe_omax_right (x y : Option R) : oLe y (omax x y) := by
  cases x with
  | none => rw [omax_none_left]; exact oLe_refl _
  | some a =>
    cases y with
    | none => exact trivial
    | some b =>
      rw [omax_some]
      by_cases h : a < b
      · rw [if_pos h]; exact oLe_refl _
      · rw [if_neg h]; exact le_of_not_lt h

lemma omax_oLe {x y z : Option R} (h1 : oLe x z) (h2 : oLe y z) :
    oLe (omax x y) z := by
  unfold omax
  by_cases h : optLtB x y = true <;> simp [h] <;> assumption

lemma foldMax_oLe_of_mem {l : List (Option R)} {x : Option R} (hx : x ∈ l) :
    oLe x (foldMax l) := by
  induction l with
  | nil => cases hx
  | cons y ys ih =>
    rw [foldMax_cons]
    rcases List.mem_cons.mp hx with h | h
    · rw [h]; exact oLe_omax_left _ _
    · exact oLe_trans (ih h) (oLe_omax_right _ _)

lemma foldMax_mem {l : List (Option R)} {v : R} (h : foldMax l = some v) :
    some v ∈ l := by
  induction l with
  | nil => cases h
  | cons y ys ih =>
    rw [foldMax_cons] at h
    unfold omax at h
    by_cases hb : optLtB y (foldMax ys) = true
    · rw [if_pos hb] at h
      exact List.mem_cons_of_mem _ (ih h)
    · rw [if_neg hb] at h
      rw [h]
      exact List.mem_cons_self _ _

lemma foldMax_eq_none_iff {l : List (Option R)} :
    foldMax l = none ↔ ∀ x ∈ l, x = none := by
  induction l with
  | nil => simp [foldMax_nil]
  | cons y ys ih =>
    rw [foldMax_cons]
    constructor
    · intro h
      cases y with
      | none =>
        rw [omax_none_left] at h
        intro x hx
        rcases List.mem_cons.mp hx with hh | hh
        · rw [hh]
        · exact ih.mp h x hh
      | some a =>
        exfalso
        unfold omax at h
        by_cases hb : optLtB (some a) (foldMax ys) = true
        · rw [if_pos hb] at h
          unfold optLtB at hb
          rw [h] at hb
          cases hb
        · rw [if_neg hb] at h; cases h
    · intro h
      have hy : y = none := h y (List.mem_cons_self _ _)
      have hys : foldMax ys = none := ih.mpr (fun x hx => h x (List.mem_cons_of_mem _ hx))
      rw [hy, hys, omax_none_left]

lemma foldMax_congr {l r : List (Option R)} (h : ∀ x, x ∈ l ↔ x ∈ r) :
    foldMax l = foldMax r := by
  cases hl : foldMax l with
  | none =>
    cases hr : foldMax r with
    | none => rfl
    | some v =>
      exfalso
      have := foldMax_eq_none_iff.mp hl (some v) ((h _).mpr (foldMax_mem hr))
      cases this
  | some v =>
    cases hr : foldMax r with
    | none =>
      exfalso
      have := foldMax_eq_none_iff.mp hr (some v) ((h _).mp (foldMax_mem hl))
      cases this
    | some w =>
      have h1 : oLe (some v) (foldMax r) :=
        foldMax_oLe_of_mem ((h _).mp (foldMax_mem hl))
      have h2 : oLe (some w) (foldMax l) :=
        foldMax_oLe_of_mem ((h _).mpr (foldMax_mem hr))
      rw [hl] at h2
      rw [hr] at h1
      exact (oLe_antisymm h2 h1) ▸ rfl

lemma omul_omax_right (x y c : Option R)
    (hc : ∀ v, c = some v → 0 < v) :
    omul (omax x y) c = omax (omul x c) (omul y c) := by
  cases c with
  | none => simp [omul_none_right, omax]
  | some v =>
    have hv : 0 < v := hc v rfl
    cases x with
    | none => simp [omul_none_left, omax_none_left]
    | some a =>
      cases y with
      | none => simp [omul_none_right, omax_none_right, omul]
      | some b =>
        simp only [omul, omax, optLtB]
        by_cases hab : a < b
        · rw [if_pos (by simpa using hab),
            if_pos (by simpa using (mul_lt_mul_of_pos_right hab hv))]
        · rw [if_neg (by simpa using hab),
            if_neg (by simpa using fun hc2 => hab (lt_of_mul_lt_mul_right hc2 (le_of_lt hv)))]

lemma foldMax_map_omul {α : Type} (l : List α) (f : α → Option R) (c : Option R)
    (hc : ∀ v, c = some v → 0 < v) :
    foldMax (l.map (fun a => omul (f a) c)) = omul (foldMax (l.map f)) c := by
  induction l with
  | nil => simp [foldMax_nil, omul_none_left]
  | cons x xs ih =>
    simp only [List.map_cons, foldMax_cons, ih]
    rw [omul_omax_right _ _ _ hc]

/-- The value of a usable transition edge `a -> b`: present and positive
(exactly `_connected`), `none` otherwise. -/
def edgeVal (m : hmm R) (a b : String) : Option R :=
  match m.getState a with
  | none => none
  | some st =>
    match dictGet st.p_transition b with
    | none => none
    | some t => if 0 < t then some t else none

/-- The value of a usable emission of `o` by state `s`: present and
positive, `none` otherwise. -/
def emitVal (m : hmm R) (s o : String) : Option R :=
  match m.getState s with
  | none => none
  | some st =>
    match dictGet st.p_emission o with
    | none => none
    | some em => if 0 < em then some em else none

/-- The value of a usable initial state: positive `p_initial`, `none`
otherwise. -/
def initVal (m : hmm R) (s : String) : Option R :=
  match m.getState s with
  | none => none
  | some st => if 0 < st.p_initial then some st.p_initial else none

/-- The joint score of the remainder of a path after state `a`, against the
remaining observations: the product of the transition and emission values,
`none` when any step is unusable or the lengths differ. -/
def pathScoreFrom (m : hmm R) : String → List String → List String → Option R
  | _, [], [] => some 1
  | a, s :: ss, o :: os =>
    omul (omul (edgeVal m a s) (emitVal m s o)) (pathScoreFrom m s ss os)
  | _, _, _ => none

/-- The score of a state path for an observation sequence: the product of
the initial, emission and transition probabilities when the path is valid
(positive initial probability, positive transition edges, positive
emissions), `none` otherwise.  This is the specification-side notion of a
valid path's probability; defined for non-empty paths. -/
def pathScore (m : hmm R) : List String → List String → Option R
  | s :: ss, o :: os =>
    omul (omul (initVal m s) (emitVal m s o)) (pathScoreFrom m s ss os)
  | _, _ => none

/-- All state sequences of length `n` over `l`, grown at the right end. -/
def seqProductR (l : List String) : Nat → List (List String)
  | 0 => [[]]
  | n + 1 => (seqProductR l n).flatMap (fun q => l.map (fun x => q ++ [x]))

/-- The best (maximum) score over all valid state paths for the (non-empty)
observation prefix `pre` that end in state `s`. -/
def hmm.bestEnd (m : hmm R) (pre : List String) (s : String) : Option R :=
  foldMax ((seqProductR m.stateNames (pre.length - 1)).map
    (fun q => pathScore m (q ++ [s]) pre))

/-- The trellis column that the specification predicts for the observation
prefix `pre`: every state name mapped to its best-ending-path score. -/
def colSpec (m : hmm R) (pre : List String) : Col R :=
  m.states.map (fun e => (e.1, m.bestEnd pre e.1))

/-- The predicted columns for the prefixes `pre ++ take 1 os`,
`pre ++ take 2 os`, ... -/
def specCols (m : hmm R) : List String → List String → List (Col R)
  | _, [] => []
  | pre, o :: os => colSpec m (pre ++ [o]) :: specCols m (pre ++ [o]) os

/-- The predicted trellis (before terminal adjustment) for a whole
observation sequence. -/
def fullCols (m : hmm R) : List String → List (Col R)
  | [] => []
  | o :: os => colSpec m [o] :: specCols m [o] os

/-- Well-formedness of a model: unique state keys and nonnegative stored
probabilities (the data model gives probabilities in the interval 0..1; only
nonnegativity is needed). -/
def hmm.wfP (m : hmm R) : Prop :=
  m.stateNames.Nodup ∧
  ∀ e ∈ m.states, 0 ≤ e.2.p_initial ∧
    (∀ x ∈ e.2.p_emission, 0 ≤ x.2) ∧ (∀ x ∈ e.2.p_transition, 0 ≤ x.2)

instance (m : hmm R) : Decidable m.wfP := by
  unfold hmm.wfP
  exact inferInstance

/-- All transition probabilities stored in the model are strictly positive
(rules out the present-but-zero edges on which `score` and `_connected`
disagree, see `score_present_zero_transition_raises`). -/
def hmm.wfPosTrans (m : hmm R) : Prop :=
  ∀ e ∈ m.states, ∀ x ∈ e.2.p_transition, 0 < x.2

instance (m : hmm R) : Decidable m.wfPosTrans := by
  unfold hmm.wfPosTrans
  exact inferInstance

lemma statesGet_of_mem {l : List (String × state R)} {e : String × state R}
    (hnd : (l.map (fun x => x.1)).Nodup) (he : e ∈ l) :
    statesGet l e.1 = some e.2 := by
  induction l with
  | nil => cases he
  | cons a rest ih =>
    rw [List.map_cons, List.nodup_cons] at hnd
    rcases List.mem_cons.mp he with h | h
    · rw [h, statesGet, if_pos rfl]
    · rw [statesGet]
      by_cases hk : a.1 = e.1
      · exfalso
        exact hnd.1 (hk ▸ List.mem_map.mpr ⟨e, h, rfl⟩)
      · rw [if_neg hk]
        exact ih hnd.2 h

lemma getState_of_mem {m : hmm R} {e : String × state R}
    (hnd : m.stateNames.Nodup) (he : e ∈ m.states) :
    m.getState e.1 = some e.2 :=
  statesGet_of_mem hnd he

lemma statesGet_mem {l : List (String × state R)} {k : String} {st : state R}
    (h : statesGet l k = some st) : (k, st) ∈ l := by
  induction l with
  | nil => cases h
  | cons a rest ih =>
    rw [statesGet] at h
    by_cases hk : a.1 = k
    · rw [if_pos hk] at h
      cases h
      subst hk
      exact List.mem_cons_self _ _
    · rw [if_neg hk] at h
      exact List.mem_cons_of_mem _ (ih h)

lemma statesGet_isSome_iff {l : List (String × state R)} {k : String} :
    (statesGet l k).isSome ↔ k ∈ l.map (fun x => x.1) := by
  induction l with
  | nil => simp [statesGet]
  | cons a rest ih =>
    simp only [statesGet, List.map_cons, List.mem_cons]
    by_cases hk : a.1 = k
    · simp [hk]
    · simp only [if_neg hk, ih]
      constructor
      · exact Or.inr
      · rintro (h | h)
        · exact absurd h.symm hk
        · exact h

lemma getState_isSome_iff_mem (m : hmm R) (k : String) :
    (m.getState k).isSome ↔ k ∈ m.stateNames :=
  statesGet_isSome_iff

lemma mem_seqProductR_iff {l : List String} {n : Nat} {q : List String} :
    q ∈ seqProductR l n ↔ q.length = n ∧ ∀ x ∈ q, x ∈ l := by
  induction n generalizing q with
  | zero =>
    simp only [seqProductR, List.mem_singleton]
    constructor
    · rintro rfl; simp
    · rintro ⟨h, _⟩
      exact List.eq_nil_of_length_eq_zero h
  | succ n ih =>
    simp only [seqProductR, List.mem_flatMap, List.mem_map]
    constructor
    · rintro ⟨q1, hq1, x, hx, rfl⟩
      rcases ih.mp hq1 with ⟨hlen, hmem⟩
      refine ⟨by simp [hlen], ?_⟩
      intro y hy
      rcases List.mem_append.mp hy with h | h
      · exact hmem y h
      · rw [List.mem_singleton.mp h]; exact hx
    · rintro ⟨hlen, hmem⟩
      have hq : q ≠ [] := by
        intro h; rw [h] at hlen; cases hlen
      refine ⟨q.dropLast, ih.mpr ⟨?_, ?_⟩, q.getLast hq, ?_, ?_⟩
      · rw [List.length_dropLast, hlen]; rfl
      · intro x hx
        exact hmem x (List.dropLast_subset q hx)
      · exact hmem _ (List.getLast_mem hq)
      · exact List.dropLast_append_getLast hq

lemma mem_seqProduct_iff {l : List String} {n : Nat} {q : List String} :
    q ∈ seqProduct l n ↔ q.length = n ∧ ∀ x ∈ q, x ∈ l := by
  induction n generalizing q with
  | zero =>
    simp only [seqProduct, List.mem_singleton]
    constructor
    · rintro rfl; simp
    · rintro ⟨h, _⟩
      exact List.eq_nil_of_length_eq_zero h
  | succ n ih =>
    simp only [seqProduct, List.mem_flatMap, List.mem_map]
    constructor
    · rintro ⟨x, hx, q1, hq1, rfl⟩
      rcases ih.mp hq1 with ⟨hlen, hmem⟩
      refine ⟨by simp [hlen], ?_⟩
      intro y hy
      rcases List.mem_cons.mp hy with h | h
      · rw [h]; exact hx
      · exact hmem y h
    · rintro ⟨hlen, hmem⟩
      cases q with
      | nil => cases hlen
      | cons x q1 =>
        refine ⟨x, hmem x (List.mem_cons_self _ _), q1,
          ih.mpr ⟨by simpa using hlen, fun y hy => hmem y (List.mem_cons_of_mem _ hy)⟩, rfl⟩

lemma edgeVal_pos {m : hmm R} {a b : String} {t : R}
    (h : edgeVal m a b = some t) : 0 < t := by
  unfold edgeVal at h
  split at h
  · cases h
  · split at h
    · cases h
    · split at h
      · cases h; assumption
      · cases h

lemma emitVal_pos {m : hmm R} {s o : String} {em : R}
    (h : emitVal m s o = some em) : 0 < em := by
  unfold emitVal at h
  split at h
  · cases h
  · split at h
    · cases h
    · split at h
      · cases h; assumption
      · cases h

lemma initVal_pos {m : hmm R} {s : String} {v : R}
    (h : initVal m s = some v) : 0 < v := by
  unfold initVal at h
  split at h
  · cases h
  · split at h
    · cases h; assumption
    · cases h

lemma omul_edge_emit_pos {m : hmm R} {x s o : String} :
    ∀ v, omul (edgeVal m x s) (emitVal m s o) = some v → 0 < v := by
  intro v h
  unfold omul at h
  split at h
  · rename_i a b ha hb
    cases h
    exact mul_pos (edgeVal_pos ha) (emitVal_pos hb)
  · cases h

lemma edgeVal_of_connected {m : hmm R} {a b : String}
    (h : m.connected a b = true) :
    ∃ st t, m.getState a = some st ∧ dictGet st.p_transition b = some t ∧
      0 < t ∧ edgeVal m a b = some t := by
  unfold hmm.connected at h
  cases hg : m.getState a with
  | none => simp only [hg] at h; cases h
  | some st =>
    simp only [hg] at h
    cases hd : dictGet st.p_transition b with
    | none => simp only [hd] at h; cases h
    | some t =>
      simp only [hd, decide_eq_true_eq] at h
      refine ⟨st, t, rfl, hd, h, ?_⟩
      simp only [edgeVal, hg, hd, if_pos h]

lemma edgeVal_none_of_not_connected {m : hmm R} {a b : String}
    (h : m.connected a b = false) : edgeVal m a b = none := by
  unfold hmm.connected at h
  cases hg : m.getState a with
  | none => simp only [edgeVal, hg]
  | some st =>
    simp only [hg] at h
    cases hd : dictGet st.p_transition b with
    | none => simp only [edgeVal, hg, hd]
    | some t =>
      simp only [hd, decide_eq_false_iff_not] at h
      simp only [edgeVal, hg, hd, if_neg h]

lemma connected_of_edgeVal {m : hmm R} {a b : String} {t : R}
    (h : edgeVal m a b = some t) : m.connected a b = true := by
  cases hc : m.connected a b
  · rw [edgeVal_none_of_not_connected hc] at h; cases h
  · rfl

lemma flatMap_congr_left {α β : Type} {l : List α} {f g : α → List β}
    (h : ∀ a ∈ l, f a = g a) : l.flatMap f = l.flatMap g := by
  induction l with
  | nil => rfl
  | cons a rest ih =>
    simp only [List.flatMap_cons]
    rw [h a (List.mem_cons_self _ _), ih (fun b hb => h b (List.mem_cons_of_mem _ hb))]

lemma pathScoreFrom_snoc (m : hmm R) :
    ∀ (q : List String) (a x s o : String) (obs : List String),
      q.length + 1 = obs.length →
      pathScoreFrom m a ((q ++ [x]) ++ [s]) (obs ++ [o]) =
        omul (pathScoreFrom m a (q ++ [x]) obs)
          (omul (edgeVal m x s) (emitVal m s o)) := by
  intro q
  induction q with
  | nil =>
    intro a x s o obs hlen
    cases obs with
    | nil => cases hlen
    | cons o1 rest =>
      cases rest with
      | nil => simp only [List.nil_append, List.cons_append, pathScoreFrom, omul_some_one]
      | cons _ _ => simp at hlen
  | cons b q' ih =>
    intro a x s o obs hlen
    cases obs with
    | nil => cases hlen
    | cons ob obs' =>
      simp only [List.cons_append, pathScoreFrom, List.append_eq]
      rw [ih b x s o obs' (by simp at hlen; omega), ← omul_assoc]

lemma pathScore_snoc (m : hmm R) (q : List String) (x s o : String)
    (obs : List String) (hlen : q.length + 1 = obs.length) :
    pathScore m ((q ++ [x]) ++ [s]) (obs ++ [o]) =
      omul (pathScore m (q ++ [x]) obs) (omul (edgeVal m x s) (emitVal m s o)) := by
  cases q with
  | nil =>
    cases obs with
    | nil => cases hlen
    | cons o1 rest =>
      cases rest with
      | nil => simp only [List.nil_append, List.cons_append, pathScore, pathScoreFrom,
          omul_some_one]
      | cons _ _ => simp at hlen
  | cons b q' =>
    cases obs with
    | nil => cases hlen
    | cons ob obs' =>
      simp only [List.cons_append, pathScore, List.append_eq]
      rw [pathScoreFrom_snoc m q' b x s o obs' (by simp at hlen; omega), ← omul_assoc]

lemma bestEnd_single (m : hmm R) (o s : String) :
    m.bestEnd [o] s = pathScore m [s] [o] := by
  unfold hmm.bestEnd
  simp [seqProductR, foldMax_cons, foldMax_nil, omax_none_right]

lemma bestEnd_snoc (m : hmm R) (pre : List String) (hpre : pre ≠ [])
    (o s : String) :
    m.bestEnd (pre ++ [o]) s =
      foldMax (m.stateNames.map (fun s2 =>
        omul (m.bestEnd pre s2) (omul (edgeVal m s2 s) (emitVal m s o)))) := by
  obtain ⟨n, hn⟩ : ∃ n, pre.length = n + 1 :=
    ⟨pre.length - 1, (Nat.succ_pred_eq_of_pos (List.length_pos.mpr hpre)).symm⟩
  unfold hmm.bestEnd
  have hl1 : (pre ++ [o]).length - 1 = n + 1 := by simp [hn]
  have hl2 : pre.length - 1 = n := by simp [hn]
  simp only [hl1, hl2]
  rw [show seqProductR m.stateNames (n+1) =
    (seqProductR m.stateNames n).flatMap
      (fun q => m.stateNames.map (fun x => q ++ [x])) from rfl]
  rw [List.map_flatMap]
  have hrw : ∀ q ∈ seqProductR m.stateNames n,
      (m.stateNames.map (fun x => q ++ [x])).map
          (fun q2 => pathScore m (q2 ++ [s]) (pre ++ [o])) =
        m.stateNames.map (fun x =>
          omul (pathScore m (q ++ [x]) pre)
            (omul (edgeVal m x s) (emitVal m s o))) := by
    intro q hq
    rw [List.map_map]
    apply List.map_congr_left
    intro x _
    have hlen : q.length + 1 = pre.length := by
      rw [(mem_seqProductR_iff.mp hq).1, hn]
    exact pathScore_snoc m q x s o pre hlen
  rw [flatMap_congr_left hrw]
  have hR : ∀ s2 ∈ m.stateNames,
      omul (foldMax ((seqProductR m.stateNames n).map
          (fun q => pathScore m (q ++ [s2]) pre)))
        (omul (edgeVal m s2 s) (emitVal m s o)) =
      foldMax ((seqProductR m.stateNames n).map
        (fun q => omul (pathScore m (q ++ [s2]) pre)
          (omul (edgeVal m s2 s) (emitVal m s o)))) := by
    intro s2 _
    rw [foldMax_map_omul _ _ _ omul_edge_emit_pos]
  rw [List.map_congr_left hR, ← foldMax_flatMap]
  apply foldMax_congr
  intro x
  simp only [List.mem_flatMap, List.mem_map]
  constructor
  · rintro ⟨q, hq, a, ha, rfl⟩
    exact ⟨a, ha, q, hq, rfl⟩
  · rintro ⟨a, ha, q, hq, rfl⟩
    exact ⟨q, hq, a, ha, rfl⟩

lemma mapM_ok_of_forall {α β : Type} (l : List α) (f : α → Except PyErr β)
    (g : α → β) (h : ∀ a ∈ l, f a = .ok (g a)) : l.mapM f = .ok (l.map g) := by
  induction l with
  | nil => rfl
  | cons a rest ih =>
    rw [List.mapM_cons, h a (List.mem_cons_self _ _),
      ih (fun b hb => h b (List.mem_cons_of_mem _ hb))]
    rfl

lemma dictGet_mem {l : List (String × R)} {k : String} {v : R}
    (h : dictGet l k = some v) : (k, v) ∈ l := by
  induction l with
  | nil => cases h
  | cons a rest ih =>
    rw [dictGet] at h
    by_cases hk : a.1 = k
    · rw [if_pos hk] at h
      cases h
      subst hk
      exact List.mem_cons_self _ _
    · rw [if_neg hk] at h
      exact List.mem_cons_of_mem _ (ih h)

lemma emitVal_eq_of_wf (m : hmm R) (hw : m.wfP) {e : String × state R}
    (he : e ∈ m.states) (o : String) :
    emitVal m e.1 o =
      if (dictGet e.2.p_emission o).getD 0 = 0 then none
      else some ((dictGet e.2.p_emission o).getD 0) := by
  have hg := getState_of_mem hw.1 he
  unfold emitVal
  rw [hg]
  cases hd : dictGet e.2.p_emission o with
  | none => simp [hd]
  | some em =>
    have hnn : 0 ≤ em := (hw.2 e he).2.1 _ (dictGet_mem hd)
    by_cases h0 : em = 0
    · simp [hd, h0]
    · have hpos : 0 < em := lt_of_le_of_ne hnn (Ne.symm h0)
      simp [hd, h0, hpos]

lemma emit_getD_pos_of_wf (m : hmm R) (hw : m.wfP) {e : String × state R}
    (he : e ∈ m.states) (o : String)
    (h0 : (dictGet e.2.p_emission o).getD 0 ≠ 0) :
    0 < (dictGet e.2.p_emission o).getD 0 := by
  cases hd : dictGet e.2.p_emission o with
  | none =>
    rw [hd] at h0
    exact absurd (rfl : (0 : R) = 0) (by simpa using h0)
  | some em =>
    rw [hd] at h0
    have hnn := (hw.2 e he).2.1 _ (dictGet_mem hd)
    simpa using lt_of_le_of_ne hnn (Ne.symm (by simpa using h0))

lemma foldl_omax_map {α : Type} (l : List α) (f : α → Option R) (acc : Option R) :
    l.foldl (fun b x => omax b (f x)) acc = omax acc (foldMax (l.map f)) := by
  induction l generalizing acc with
  | nil => rw [List.foldl_nil, List.map_nil, foldMax_nil, omax_none_right]
  | cons x xs ih =>
    rw [List.foldl_cons, ih, List.map_cons, foldMax_cons, omax_assoc]

lemma col0_spec (m : hmm R) (hw : m.wfP) (o : String) :
    m.col0 o = .ok (colSpec m [o]) := by
  unfold hmm.col0 colSpec
  apply mapM_ok_of_forall
  intro e he
  have hg := getState_of_mem hw.1 he
  have hpe : m.pEmit e.1 o = some ((dictGet e.2.p_emission o).getD 0) := by
    unfold hmm.pEmit
    rw [hg]
  rw [bestEnd_single]
  have hps : pathScore m [e.1] [o] =
      omul (initVal m e.1) (emitVal m e.1 o) := by
    simp only [pathScore, pathScoreFrom, omul_some_one]
  rw [hps]
  simp only [hpe]
  have hiv : initVal m e.1 = if 0 < e.2.p_initial then some e.2.p_initial else none := by
    unfold initVal
    rw [hg]
  have hevw := emitVal_eq_of_wf m hw he o
  have hinn : 0 ≤ e.2.p_initial := (hw.2 e he).1
  by_cases h1 : e.2.p_initial = (0 : R)
  · have hni : ¬ ((0 : R) < e.2.p_initial) := by rw [h1]; exact lt_irrefl 0
    rw [if_pos (Or.inl h1), hiv, if_neg hni, omul_none_left]
  · by_cases h2 : (dictGet e.2.p_emission o).getD 0 = 0
    · rw [if_pos (Or.inr h2), hevw, if_pos h2, omul_none_right]
    · have hip : 0 < e.2.p_initial := lt_of_le_of_ne hinn (Ne.symm h1)
      have hep : 0 < (dictGet e.2.p_emission o).getD 0 :=
        emit_getD_pos_of_wf m hw he o h2
      have hor : ¬ (e.2.p_initial = 0 ∨ (dictGet e.2.p_emission o).getD 0 = 0) := by
        rintro (h | h)
        · exact h1 h
        · exact h2 h
      rw [if_neg hor, if_pos hip, if_pos hep, hiv, if_pos hip, hevw, if_neg h2]
      rfl

lemma bestStep_fold (m : hmm R) (sName : String) (pe : R) (hpe : 0 < pe) :
    ∀ (prior : Col R) (acc : Option R),
      prior.foldlM (m.bestStep sName (some pe)) acc =
        .ok (prior.foldl (fun b pr =>
          omax b (omul pr.2 (omul (edgeVal m pr.1 sName) (some pe)))) acc) := by
  intro prior
  induction prior with
  | nil => intro acc; rfl
  | cons pr rest ih =>
    intro acc
    rw [List.foldlM_cons, List.foldl_cons]
    have hstep : m.bestStep sName (some pe) acc pr =
        .ok (omax acc (omul pr.2 (omul (edgeVal m pr.1 sName) (some pe)))) := by
      unfold hmm.bestStep
      cases hpr : pr.2 with
      | none =>
        dsimp only
        rw [omul_none_left, omax_none_right]
      | some pp =>
        dsimp only
        cases hc : m.connected pr.1 sName with
        | false =>
          rw [if_neg Bool.false_ne_true, edgeVal_none_of_not_connected hc,
            omul_none_left, omul_none_right, omax_none_right]
        | true =>
          rw [if_pos rfl]
          obtain ⟨st, t, hgs, hd, ht, hev⟩ := edgeVal_of_connected hc
          have hpt : m.pTransition pr.1 sName = some t := by
            unfold hmm.pTransition
            rw [hgs]
            simp [hd]
          rw [if_pos hpe, hpt]
          dsimp only
          rw [if_pos ht, hev]
          have hval : omul (some pp) (omul (some t) (some pe)) =
              some (pp * pe * t) := by
            show some (pp * (t * pe)) = some (pp * pe * t)
            exact congrArg some (by ring)
          rw [hval]
          cases acc with
          | none =>
            dsimp only
            rw [omax_none_left]
          | some b =>
            dsimp only
            rw [omax_some]
    rw [hstep]
    exact ih _

lemma innerCol_spec (m : hmm R) (hw : m.wfP) (pre : List String) (hpre : pre ≠ [])
    (o : String) :
    m.innerCol (colSpec m pre) o = .ok (colSpec m (pre ++ [o])) := by
  unfold hmm.innerCol
  apply mapM_ok_of_forall
  intro e he
  have hg := getState_of_mem hw.1 he
  have hpe : m.pEmit e.1 o = some ((dictGet e.2.p_emission o).getD 0) := by
    unfold hmm.pEmit
    rw [hg]
  have hevw := emitVal_eq_of_wf m hw he o
  by_cases h0 : (dictGet e.2.p_emission o).getD 0 = 0
  · rw [hpe, h0, if_pos rfl]
    have hev : emitVal m e.1 o = none := by rw [hevw, if_pos h0]
    rw [bestEnd_snoc m pre hpre o e.1]
    have hnone : foldMax (m.stateNames.map (fun s2 =>
        omul (m.bestEnd pre s2) (omul (edgeVal m s2 e.1) (emitVal m e.1 o)))) = none := by
      apply foldMax_eq_none_iff.mpr
      intro x hx
      rcases List.mem_map.mp hx with ⟨s2, _, rfl⟩
      rw [hev, omul_none_right, omul_none_right]
    rw [hnone]
  · have hep : 0 < (dictGet e.2.p_emission o).getD 0 :=
      emit_getD_pos_of_wf m hw he o h0
    have hev : emitVal m e.1 o = some ((dictGet e.2.p_emission o).getD 0) := by
      rw [hevw, if_neg h0]
    rw [hpe, if_neg (fun hc => h0 (Option.some.inj hc)),
      bestStep_fold m e.1 _ hep (colSpec m pre) none]
    rw [foldl_omax_map, omax_none_left, bestEnd_snoc m pre hpre o e.1, hev]
    unfold colSpec hmm.stateNames
    rw [List.map_map, List.map_map]
    rfl

lemma trellisCols_spec (m : hmm R) (hw : m.wfP) :
    ∀ (os : List String) (pre : List String), pre ≠ [] →
      m.trellisCols (colSpec m pre) os = .ok (specCols m pre os) := by
  intro os
  induction os with
  | nil => intro pre hpre; rfl
  | cons o os' ih =>
    intro pre hpre
    rw [hmm.trellisCols, innerCol_spec m hw pre hpre o]
    dsimp only
    rw [ih (pre ++ [o]) (by simp)]
    rfl

lemma trellisRaw_spec (m : hmm R) (hw : m.wfP) (obs : List String) :
    m.trellisRaw obs = .ok (fullCols m obs) := by
  cases obs with
  | nil => rfl
  | cons o os =>
    rw [hmm.trellisRaw, col0_spec m hw o]
    dsimp only
    rw [trellisCols_spec m hw os [o] (by simp)]
    rfl

lemma specCols_length (m : hmm R) : ∀ (os pre : List String),
    (specCols m pre os).length = os.length := by
  intro os
  induction os with
  | nil => intro pre; rfl
  | cons o os' ih =>
    intro pre
    simp [specCols, ih]

lemma colSpec_keys (m : hmm R) (pre : List String) :
    (colSpec m pre).map (fun e => e.1) = m.stateNames := by
  unfold colSpec hmm.stateNames
  rw [List.map_map]
  rfl

lemma specCols_mem_keys (m : hmm R) : ∀ (os pre : List String),
    ∀ c ∈ specCols m pre os, c.map (fun e => e.1) = m.stateNames := by
  intro os
  induction os with
  | nil => intro pre c hc; cases hc
  | cons o os' ih =>
    intro pre c hc
    rcases List.mem_cons.mp hc with h | h
    · rw [h]; exact colSpec_keys m _
    · exact ih _ c h

lemma specCols_get (m : hmm R) : ∀ (os pre : List String) (i : Nat)
    (hi : i < (specCols m pre os).length),
    (specCols m pre os).get ⟨i, hi⟩ = colSpec m (pre ++ os.take (i+1)) := by
  intro os
  induction os with
  | nil =>
    intro pre i hi
    rw [specCols_length] at hi
    cases hi
  | cons o os' ih =>
    intro pre i hi
    cases i with
    | zero => simp [specCols]
    | succ j =>
      have hj : j < (specCols m (pre ++ [o]) os').length := by
        rw [specCols_length]
        rw [specCols_length] at hi
        exact Nat.lt_of_succ_lt_succ hi
      have hstep : (specCols m pre (o :: os')).get ⟨j + 1, hi⟩ =
          (specCols m (pre ++ [o]) os').get ⟨j, hj⟩ := rfl
      rw [hstep, ih (pre ++ [o]) j hj]
      congr 1
      simp [List.take_succ_cons, List.append_assoc]

lemma specCols_getLast (m : hmm R) : ∀ (os pre : List String),
    (colSpec m pre :: specCols m pre os).getLast? = some (colSpec m (pre ++ os)) := by
  intro os
  induction os with
  | nil => intro pre; simp [specCols]
  | cons o os' ih =>
    intro pre
    rw [show specCols m pre (o :: os') =
      colSpec m (pre ++ [o]) :: specCols m (pre ++ [o]) os' from rfl]
    rw [List.getLast?_cons_cons, ih (pre ++ [o])]
    simp

lemma fullCols_length (m : hmm R) (obs : List String) :
    (fullCols m obs).length = obs.length := by
  cases obs with
  | nil => rfl
  | cons o os => simp [fullCols, specCols_length]

lemma fullCols_mem_keys (m : hmm R) (obs : List String) :
    ∀ c ∈ fullCols m obs, c.map (fun e => e.1) = m.stateNames := by
  cases obs with
  | nil => intro c hc; cases hc
  | cons o os =>
    intro c hc
    rcases List.mem_cons.mp hc with h | h
    · rw [h]; exact colSpec_keys m _
    · exact specCols_mem_keys m os [o] c h

lemma fullCols_get (m : hmm R) (obs : List String) (i : Nat)
    (hi : i < (fullCols m obs).length) :
    (fullCols m obs).get ⟨i, hi⟩ = colSpec m (obs.take (i+1)) := by
  cases obs with
  | nil => rw [fullCols_length] at hi; cases hi
  | cons o os =>
    cases i with
    | zero => simp [fullCols]
    | succ j =>
      have hj : j < (specCols m [o] os).length := by
        rw [specCols_length]
        rw [fullCols_length] at hi
        exact Nat.lt_of_succ_lt_succ hi
      have hstep : (fullCols m (o :: os)).get ⟨j + 1, hi⟩ =
          (specCols m [o] os).get ⟨j, hj⟩ := rfl
      rw [hstep, specCols_get m os [o] j hj]
      congr 1

lemma fullCols_getLast (m : hmm R) (obs : List String) (hne : obs ≠ []) :
    (fullCols m obs).getLast? = some (colSpec m obs) := by
  cases obs with
  | nil => exact absurd rfl hne
  | cons o os =>
    rw [show fullCols m (o :: os) = colSpec m [o] :: specCols m [o] os from rfl,
      specCols_getLast m os [o]]
    simp

lemma adjustEntry_key (m : hmm R) (a b : String × Option R)
    (h : m.adjustEntry a = .ok b) : b.1 = a.1 := by
  unfold hmm.adjustEntry at h
  split at h
  · split at h
    · cases h
    · split at h
      · split at h
        · cases h
        · cases h; rfl
      · cases h
  · cases h; rfl

lemma mapM_adjust_keys (m : hmm R) : ∀ (c cAdj : Col R),
    c.mapM m.adjustEntry = .ok cAdj →
    cAdj.map (fun e => e.1) = c.map (fun e => e.1) := by
  intro c
  induction c with
  | nil =>
    intro cAdj h
    cases h
    rfl
  | cons a rest ih =>
    intro cAdj h
    rw [List.mapM_cons] at h
    cases ha : m.adjustEntry a with
    | error er =>
      rw [ha] at h
      cases h
    | ok b =>
      rw [ha] at h
      cases hr : rest.mapM m.adjustEntry with
      | error er =>
        rw [hr] at h
        cases h
      | ok bs =>
        rw [hr] at h
        cases h
        simp [adjustEntry_key m a b ha, ih bs hr]

lemma colSpec_entry (m : hmm R) (pre : List String) (e : String × Option R)
    (he : e ∈ colSpec m pre) :
    e.2 = m.bestEnd pre e.1 ∧
    (e.2 = none ↔ ∀ q ∈ seqProductR m.stateNames (pre.length - 1),
      pathScore m (q ++ [e.1]) pre = none) := by
  rcases List.mem_map.mp he with ⟨e2, _, rfl⟩
  refine ⟨rfl, ?_⟩
  unfold hmm.bestEnd
  constructor
  · intro h q hq
    exact foldMax_eq_none_iff.mp h _ (List.mem_map.mpr ⟨q, hq, rfl⟩)
  · intro h
    apply foldMax_eq_none_iff.mpr
    intro x hx
    rcases List.mem_map.mp hx with ⟨q, hq, rfl⟩
    exact h q hq

lemma get_dropLast_append {α : Type} : ∀ (l : List α) (x : α) (i : Nat)
    (h1 : i + 1 < l.length) (h2 : i < (l.dropLast ++ [x]).length),
    (l.dropLast ++ [x]).get ⟨i, h2⟩ = l.get ⟨i, Nat.lt_of_succ_lt h1⟩ := by
  intro l
  induction l with
  | nil => intro x i h1 _; cases h1
  | cons a rest ih =>
    intro x i h1 h2
    cases rest with
    | nil =>
      exfalso
      simp at h1
    | cons b rest' =>
      cases i with
      | zero => rfl
      | succ j =>
        have h1' : j + 1 < (b :: rest').length := by
          simpa using h1
        have h2' : j < ((b :: rest').dropLast ++ [x]).length := by
          simp only [List.length_append, List.length_dropLast] at h2 ⊢
          simpa using h2
        exact ih x j h1' h2'

lemma trellis_of_not_terminal (m : hmm R) (hw : m.wfP) (obs : List String)
    (hterm : m.terminal_state = false) :
    m.trellis obs = .ok (fullCols m obs) := by
  unfold hmm.trellis
  rw [trellisRaw_spec m hw obs]
  dsimp only
  rw [if_neg (by rw [hterm]; exact Bool.false_ne_true)]

/-- C2: for a well-formed model and a non-empty observation, a trellis that
returns normally has exactly one column per observed symbol, every column
maps every state name of the model, and - apart from the terminal-state
adjustment, which touches only the last column - the entry for state `s` in
column `i` is the maximum score over all valid paths of length `i+1` ending
in `s`, and is unreachable (`none`) exactly when no valid path of that shape
exists. -/
theorem trellis_columns_are_best_path_scores (m : hmm R) (hw : m.wfP)
    (observed : List String) (hne : observed ≠ []) (cols : List (Col R))
    (ht : m.trellis observed = .ok cols) :
    cols.length = observed.length ∧
    (∀ c ∈ cols, c.map (fun e => e.1) = m.stateNames) ∧
    (∀ (i : Nat) (hi : i < cols.length),
      (i + 1 < cols.length ∨ m.terminal_state = false) →
      ∀ e ∈ cols.get ⟨i, hi⟩,
        e.2 = m.bestEnd (observed.take (i+1)) e.1 ∧
        (e.2 = none ↔ ∀ q ∈ seqProductR m.stateNames i,
          pathScore m (q ++ [e.1]) (observed.take (i+1)) = none)) := by
  have hcore : ∀ (i : Nat) (hif : i < (fullCols m observed).length),
      ∀ e ∈ (fullCols m observed).get ⟨i, hif⟩,
        e.2 = m.bestEnd (observed.take (i+1)) e.1 ∧
        (e.2 = none ↔ ∀ q ∈ seqProductR m.stateNames i,
          pathScore m (q ++ [e.1]) (observed.take (i+1)) = none) := by
    intro i hif e hee
    rw [fullCols_get m observed i hif] at hee
    have hc := colSpec_entry m (observed.take (i+1)) e hee
    have hlti : i < observed.length := by
      rw [fullCols_length] at hif
      exact hif
    have hlen : (observed.take (i+1)).length - 1 = i := by
      rw [List.length_take]
      have hmin : min (i+1) observed.length = i + 1 :=
        Nat.min_eq_left (Nat.succ_le_of_lt hlti)
      rw [hmin]
      omega
    rw [hlen] at hc
    exact hc
  cases hterm : m.terminal_state with
  | false =>
    have hcols : cols = fullCols m observed := by
      have h2 := trellis_of_not_terminal m hw observed hterm
      rw [h2] at ht
      exact (Except.ok.inj ht).symm
    subst hcols
    refine ⟨fullCols_length m observed, fullCols_mem_keys m observed, ?_⟩
    intro i hi _ e he
    exact hcore i hi e he
  | true =>
    unfold hmm.trellis at ht
    rw [trellisRaw_spec m hw observed] at ht
    dsimp only at ht
    rw [if_pos hterm, fullCols_getLast m observed hne] at ht
    dsimp only at ht
    cases hAdj : (colSpec m observed).mapM m.adjustEntry with
    | error er =>
      rw [hAdj] at ht
      cases ht
    | ok cAdj =>
      rw [hAdj] at ht
      cases ht
      have hlenfc : 0 < (fullCols m observed).length := by
        rw [fullCols_length]
        exact List.length_pos.mpr hne
      have hlen1 : ((fullCols m observed).dropLast ++ [cAdj]).length =
          observed.length := by
        rw [List.length_append, List.length_dropLast, fullCols_length]
        have := List.length_pos.mpr hne
        simp
        omega
      refine ⟨hlen1, ?_, ?_⟩
      · intro c hc
        rcases List.mem_append.mp hc with h | h
        · exact fullCols_mem_keys m observed c (List.dropLast_subset _ h)
        · rw [List.mem_singleton.mp h, mapM_adjust_keys m _ _ hAdj]
          exact colSpec_keys m observed
      · intro i hi hguard e he
        have hsucc : i + 1 < (fullCols m observed).length := by
          rcases hguard with h | h
          · rw [hlen1] at h
            rw [fullCols_length]
            exact h
          · cases h
        rw [get_dropLast_append (fullCols m observed) cAdj i hsucc hi] at he
        exact hcore i (Nat.lt_of_succ_lt hsucc) e he

theorem trellis_columns_witness :
    ([[("A", some (1:ℤ))]] : List (Col ℤ)).length = (["x"] : List String).length ∧
    (∀ c ∈ ([[("A", some (1:ℤ))]] : List (Col ℤ)),
      c.map (fun e => e.1) = mOnlyX.stateNames) ∧
    (∀ (i : Nat) (hi : i < ([[("A", some (1:ℤ))]] : List (Col ℤ)).length),
      (i + 1 < ([[("A", some (1:ℤ))]] : List (Col ℤ)).length ∨
        mOnlyX.terminal_state = false) →
      ∀ e ∈ ([[("A", some (1:ℤ))]] : List (Col ℤ)).get ⟨i, hi⟩,
        e.2 = mOnlyX.bestEnd ((["x"] : List String).take (i+1)) e.1 ∧
        (e.2 = none ↔ ∀ q ∈ seqProductR mOnlyX.stateNames i,
          pathScore mOnlyX (q ++ [e.1]) ((["x"] : List String).take (i+1)) = none)) :=
  trellis_columns_are_best_path_scores mOnlyX (by decide) ["x"] (by decide)
    [[("A", some 1)]] (by decide)

lemma scoreAux_eq (m : hmm R) (hw : m.wfP) (hwt : m.wfPosTrans) :
    ∀ (ss os : List String) (aName : String) (pv : state R) (p : R),
      m.getState aName = some pv → ss.length = os.length →
      (∀ x ∈ ss, (m.getState x).isSome) →
      m.scoreAux (some pv) p ss os =
        .ok ((pathScoreFrom m aName ss os).map (fun r => p * r)) := by
  intro ss
  induction ss with
  | nil =>
    intro os aName pv p _ hlen _
    cases os with
    | nil => simp [hmm.scoreAux, pathScoreFrom]
    | cons _ _ => cases hlen
  | cons s ss' ih =>
    intro os aName pv p hg hlen hknown
    cases os with
    | nil => cases hlen
    | cons o os' =>
      obtain ⟨cur, hgs⟩ : ∃ cur, m.getState s = some cur := by
        cases hx : m.getState s with
        | none =>
          have hh := hknown s (List.mem_cons_self _ _)
          rw [hx] at hh
          cases hh
        | some cur => exact ⟨cur, rfl⟩
      simp only [hmm.scoreAux, hgs]
      simp only [scoreStep1]
      cases hd : dictGet pv.p_transition s with
      | none =>
        have he : edgeVal m aName s = none := by
          unfold edgeVal
          rw [hg]
          simp [hd]
        simp [pathScoreFrom, he, omul_none_left]
      | some t =>
        have hmem : (aName, pv) ∈ m.states := statesGet_mem hg
        have ht : 0 < t := hwt _ hmem _ (dictGet_mem hd)
        have he : edgeVal m aName s = some t := by
          unfold edgeVal
          rw [hg]
          simp [hd, ht]
        simp only [logStep, if_pos ht, Except.map]
        cases hde : dictGet cur.p_emission o with
        | none =>
          have hev : emitVal m s o = none := by
            unfold emitVal
            rw [hgs]
            simp [hde]
          simp [pathScoreFrom, he, hev, omul_none_right, omul_none_left]
        | some em =>
          have hmem2 : (s, cur) ∈ m.states := statesGet_mem hgs
          have hnn : 0 ≤ em := (hw.2 _ hmem2).2.1 _ (dictGet_mem hde)
          by_cases h0 : em = 0
          · have hev : emitVal m s o = none := by
              unfold emitVal
              rw [hgs]
              simp [hde, h0, lt_irrefl]
            simp [h0, pathScoreFrom, he, hev, omul_none_right, omul_none_left]
          · have hep : 0 < em := lt_of_le_of_ne hnn (Ne.symm h0)
            have hev : emitVal m s o = some em := by
              unfold emitVal
              rw [hgs]
              simp [hde, hep]
            dsimp only
            rw [if_neg h0]
            simp only [logStep, if_pos hep]
            rw [ih os' s cur (p * t * em) hgs (by simpa using hlen)
              (fun x hx => hknown x (List.mem_cons_of_mem _ hx))]
            simp only [pathScoreFrom, he, hev]
            cases hps : pathScoreFrom m s ss' os' with
            | none => simp [omul_none_right]
            | some r =>
              simp only [omul, Option.map_some]
              exact congrArg (fun z => Except.ok (some z)) (by ring)

lemma score_eq_pathScore (m : hmm R) (hw : m.wfP) (hwt : m.wfPosTrans)
    (hterm : m.terminal_state = false) (s0 : String) (ss os : List String)
    (hlen : (s0 :: ss).length = os.length)
    (hknown : ∀ x ∈ s0 :: ss, (m.getState x).isSome) :
    m.score (s0 :: ss) os = .ok (pathScore m (s0 :: ss) os) := by
  unfold hmm.score
  rw [if_neg (by rw [hterm]; exact Bool.false_ne_true)]
  cases os with
  | nil => cases hlen
  | cons o os' =>
    obtain ⟨cur, hgs⟩ : ∃ cur, m.getState s0 = some cur := by
      cases hx : m.getState s0 with
      | none =>
        have hh := hknown s0 (List.mem_cons_self _ _)
        rw [hx] at hh
        cases hh
      | some cur => exact ⟨cur, rfl⟩
    simp only [hmm.scoreAux, hgs]
    simp only [scoreStep1]
    have hmem : (s0, cur) ∈ m.states := statesGet_mem hgs
    have hiv : initVal m s0 =
        if 0 < cur.p_initial then some cur.p_initial else none := by
      unfold initVal
      rw [hgs]
    by_cases h0 : cur.p_initial = 0
    · have hni : ¬ ((0 : R) < cur.p_initial) := by
        rw [h0]
        exact lt_irrefl 0
      rw [if_pos h0]
      simp [pathScore, hiv, if_neg hni, omul_none_left]
    · have hip : 0 < cur.p_initial := lt_of_le_of_ne (hw.2 _ hmem).1 (Ne.symm h0)
      rw [if_neg h0]
      simp only [logStep, if_pos hip, Except.map]
      cases hde : dictGet cur.p_emission o with
      | none =>
        have hev : emitVal m s0 o = none := by
          unfold emitVal
          rw [hgs]
          simp [hde]
        simp [pathScore, hev, omul_none_right, omul_none_left]
      | some em =>
        have hnn : 0 ≤ em := (hw.2 _ hmem).2.1 _ (dictGet_mem hde)
        by_cases he0 : em = 0
        · have hev : emitVal m s0 o = none := by
            unfold emitVal
            rw [hgs]
            simp [hde, he0, lt_irrefl]
          simp [he0, pathScore, hev, omul_none_right, omul_none_left]
        · have hep : 0 < em := lt_of_le_of_ne hnn (Ne.symm he0)
          have hev : emitVal m s0 o = some em := by
            unfold emitVal
            rw [hgs]
            simp [hde, hep]
          dsimp only
          rw [if_neg he0]
          simp only [logStep, if_pos hep]
          rw [scoreAux_eq m hw hwt ss os' s0 cur (1 * cur.p_initial * em) hgs
            (by simpa using hlen)
            (fun x hx => hknown x (List.mem_cons_of_mem _ hx))]
          simp only [pathScore, hiv, if_pos hip, hev]
          cases hps : pathScoreFrom m s0 ss os' with
          | none => simp [omul_none_right]
          | some r =>
            simp only [omul, Option.map_some]
            exact congrArg (fun z => Except.ok (some z)) (by ring)

lemma foldlM_ok {α β : Type} : ∀ (l : List α) (F : β → α → Except PyErr β)
    (f : β → α → β), (∀ b, ∀ a ∈ l, F b a = .ok (f b a)) → ∀ (b0 : β),
    l.foldlM F b0 = .ok (l.foldl f b0) := by
  intro l
  induction l with
  | nil => intro F f _ b0; rfl
  | cons a rest ih =>
    intro F f h b0
    rw [List.foldlM_cons, h b0 a (List.mem_cons_self _ _)]
    exact ih F f (fun b x hx => h b x (List.mem_cons_of_mem _ hx)) (f b0 a)

lemma enumFold_snd : ∀ (l : List (List String)) (f : List String → Option R)
    (acc : Option (List String × R)),
    Option.map Prod.snd (l.foldl (fun best seq => enumStep best seq (f seq)) acc) =
      omax (Option.map Prod.snd acc) (foldMax (l.map f)) := by
  intro l
  induction l with
  | nil =>
    intro f acc
    rw [List.foldl_nil, List.map_nil, foldMax_nil, omax_none_right]
  | cons seq rest ih =>
    intro f acc
    rw [List.foldl_cons, ih, List.map_cons, foldMax_cons, ← omax_assoc]
    congr 1
    unfold enumStep
    cases hf : f seq with
    | none =>
      rw [omax_none_right]
    | some v =>
      cases acc with
      | none =>
        simp [omax_none_left]
      | some b =>
        rw [show Option.map Prod.snd (some b) = some b.2 from rfl, omax_some]
        dsimp only
        by_cases hbv : b.2 < v
        · rw [if_pos hbv, if_pos hbv]
          rfl
        · rw [if_neg hbv, if_neg hbv]
          rfl

lemma enumBest_spec (m : hmm R) (hw : m.wfP) (hwt : m.wfPosTrans)
    (hterm : m.terminal_state = false) (obs : List String) (hobs : obs ≠ []) :
    m.enumBest obs =
      .ok ((seqProduct m.stateNames obs.length).foldl
        (fun best seq => enumStep best seq (pathScore m seq obs)) none) ∧
    Option.map Prod.snd
        ((seqProduct m.stateNames obs.length).foldl
          (fun best seq => enumStep best seq (pathScore m seq obs)) none) =
      foldMax ((seqProduct m.stateNames obs.length).map
        (fun seq => pathScore m seq obs)) := by
  constructor
  · unfold hmm.enumBest
    apply foldlM_ok
    intro b seq hseq
    rcases mem_seqProduct_iff.mp hseq with ⟨hlen2, hmem2⟩
    cases seq with
    | nil =>
      exfalso
      exact hobs (List.eq_nil_of_length_eq_zero hlen2.symm)
    | cons s0 ss =>
      rw [score_eq_pathScore m hw hwt hterm s0 ss obs hlen2
        (fun x hx => (getState_isSome_iff_mem m x).mpr (hmem2 x hx))]
  · rw [enumFold_snd]
    rw [show Option.map Prod.snd (none : Option (List String × R)) = none from rfl,
      omax_none_left]

lemma foldMax_product_eq_bestEnds (m : hmm R) (obs : List String) (hobs : obs ≠ []) :
    foldMax ((seqProduct m.stateNames obs.length).map
      (fun seq => pathScore m seq obs)) =
    foldMax (m.stateNames.map (fun s => m.bestEnd obs s)) := by
  unfold hmm.bestEnd
  refine Eq.trans ?_ (foldMax_flatMap m.stateNames (fun s =>
    (seqProductR m.stateNames (obs.length - 1)).map
      (fun q => pathScore m (q ++ [s]) obs)))
  apply foldMax_congr
  intro x
  simp only [List.mem_map, List.mem_flatMap]
  constructor
  · rintro ⟨seq, hseq, rfl⟩
    rcases mem_seqProduct_iff.mp hseq with ⟨hlen, hmem⟩
    have hne : seq ≠ [] := by
      intro h
      rw [h] at hlen
      exact hobs (List.eq_nil_of_length_eq_zero hlen.symm)
    refine ⟨seq.getLast hne, hmem _ (List.getLast_mem hne), seq.dropLast,
      mem_seqProductR_iff.mpr ⟨?_, ?_⟩, ?_⟩
    · rw [List.length_dropLast, hlen]
    · exact fun y hy => hmem y (List.dropLast_subset _ hy)
    · rw [List.dropLast_append_getLast hne]
  · rintro ⟨s, hs, q, hq, rfl⟩
    rcases mem_seqProductR_iff.mp hq with ⟨hlen, hmem⟩
    refine ⟨q ++ [s], mem_seqProduct_iff.mpr ⟨?_, ?_⟩, rfl⟩
    · have hp := List.length_pos.mpr hobs
      simp [hlen]
      omega
    · intro y hy
      rcases List.mem_append.mp hy with h | h
      · exact hmem y h
      · rw [List.mem_singleton.mp h]
        exact hs

lemma pickFold_mem : ∀ (rest : List (String × Option R)) (e0 : String × Option R),
    rest.foldl (fun b x => if optLtB b.2 x.2 then x else b) e0 ∈ e0 :: rest := by
  intro rest
  induction rest with
  | nil => intro e0; exact List.mem_cons_self _ _
  | cons x xs ih =>
    intro e0
    rw [List.foldl_cons]
    rcases List.mem_cons.mp (ih (if optLtB e0.2 x.2 then x else e0)) with h | h
    · rw [h]
      by_cases hc : optLtB e0.2 x.2 = true
      · rw [if_pos hc]
        exact List.mem_cons_of_mem _ (List.mem_cons_self _ _)
      · rw [if_neg hc]
        exact List.mem_cons_self _ _
    · exact List.mem_cons_of_mem _ (List.mem_cons_of_mem _ h)

lemma pickFold_snd : ∀ (rest : List (String × Option R)) (e0 : String × Option R),
    (rest.foldl (fun b x => if optLtB b.2 x.2 then x else b) e0).2 =
      foldMax (e0.2 :: rest.map (fun x => x.2)) := by
  intro rest
  induction rest with
  | nil =>
    intro e0
    rw [List.foldl_nil, List.map_nil, foldMax_cons, foldMax_nil, omax_none_right]
  | cons x xs ih =>
    intro e0
    rw [List.foldl_cons, ih, List.map_cons, foldMax_cons, foldMax_cons,
      foldMax_cons, ← omax_assoc]
    congr 1
    unfold omax
    by_cases hc : optLtB e0.2 x.2 = true
    · rw [if_pos hc, if_pos hc]
    · rw [if_neg hc, if_neg hc]

lemma pyMaxKey_spec (c : Col R) (hne : c ≠ []) :
    ∃ e, pyMaxKey c = .ok e ∧ e ∈ c ∧ e.2 = foldMax (c.map (fun x => x.2)) := by
  cases c with
  | nil => exact absurd rfl hne
  | cons e0 rest =>
    exact ⟨_, rfl, pickFold_mem rest e0, pickFold_snd rest e0⟩

lemma mem_survivors_iff (m : hmm R) (nxt : String) (c : Col R)
    (e : String × Option R) :
    e ∈ m.survivors nxt c ↔ e ∈ c ∧ e.2.isSome ∧ m.connected e.1 nxt := by
  unfold hmm.survivors
  simp [List.mem_filter, Bool.and_eq_true, and_assoc]

lemma colSpec_mem_of_name (m : hmm R) (pre : List String) (s : String)
    (hs : s ∈ m.stateNames) : (s, m.bestEnd pre s) ∈ colSpec m pre := by
  rcases List.mem_map.mp hs with ⟨e, he, rfl⟩
  exact List.mem_map.mpr ⟨e, he, rfl⟩

lemma colSpec_elem_eq (m : hmm R) (pre : List String) (e : String × Option R)
    (he : e ∈ colSpec m pre) : e = (e.1, m.bestEnd pre e.1) := by
  rcases List.mem_map.mp he with ⟨e2, _, rfl⟩
  rfl

lemma reverse_eq_getLast_cons {α : Type} (l : List α) (x : α)
    (h : l.getLast? = some x) : l.reverse = x :: l.dropLast.reverse := by
  have hne : l ≠ [] := by
    intro hn
    rw [hn] at h
    cases h
  have h2 : l.getLast hne = x := by
    rw [List.getLast?_eq_getLast l hne] at h
    exact Option.some.inj h
  conv_lhs => rw [← List.dropLast_append_getLast hne]
  rw [List.reverse_append, h2]
  rfl

lemma specCols_snoc (m : hmm R) : ∀ (os pre : List String) (o : String),
    specCols m pre (os ++ [o]) =
      specCols m pre os ++ [colSpec m (pre ++ os ++ [o])] := by
  intro os
  induction os with
  | nil => intro pre o; simp [specCols]
  | cons o1 os' ih =>
    intro pre o
    rw [List.cons_append,
      show specCols m pre (o1 :: (os' ++ [o])) =
        colSpec m (pre ++ [o1]) :: specCols m (pre ++ [o1]) (os' ++ [o]) from rfl,
      ih (pre ++ [o1]) o]
    simp [specCols, List.append_assoc]

lemma fullCols_snoc (m : hmm R) (pre : List String) (hpre : pre ≠ [])
    (o : String) :
    fullCols m (pre ++ [o]) = fullCols m pre ++ [colSpec m (pre ++ [o])] := by
  cases pre with
  | nil => exact absurd rfl hpre
  | cons p0 ps =>
    rw [List.cons_append,
      show fullCols m (p0 :: (ps ++ [o])) =
        colSpec m [p0] :: specCols m [p0] (ps ++ [o]) from rfl,
      specCols_snoc m ps [p0] o]
    simp [fullCols, List.append_assoc]

lemma backCols_snoc (m : hmm R) (pre : List String) (hpre : pre ≠ [])
    (o : String) :
    (fullCols m (pre ++ [o])).dropLast.reverse =
      colSpec m pre :: (fullCols m pre).dropLast.reverse := by
  rw [fullCols_snoc m pre hpre o, List.dropLast_concat]
  exact reverse_eq_getLast_cons _ _ (fullCols_getLast m pre hpre)

lemma viterbiBack_spec (m : hmm R) (hw : m.wfP) :
    ∀ (pre : List String), pre ≠ [] → ∀ (nxt : String) (w : R),
      m.bestEnd pre nxt = some w →
      ∃ (path : List String) (v : R),
        m.viterbiBack nxt ((fullCols m pre).dropLast.reverse) = .ok path ∧
        path.length + 1 = pre.length ∧
        pathScore m (path.reverse ++ [nxt]) pre = some v := by
  intro pre
  induction pre using List.reverseRecOn with
  | nil => intro h; exact absurd rfl h
  | append_singleton pre' o ih =>
    intro _ nxt w hbe
    by_cases hpre' : pre' = []
    · subst hpre'
      simp only [List.nil_append] at hbe ⊢
      refine ⟨[], w, rfl, by simp, ?_⟩
      rw [show (([] : List String).reverse ++ [nxt]) = [nxt] from rfl,
        ← bestEnd_single m o nxt]
      exact hbe
    · rw [backCols_snoc m pre' hpre' o]
      rw [bestEnd_snoc m pre' hpre' o nxt] at hbe
      have hmem := foldMax_mem hbe
      rcases List.mem_map.mp hmem with ⟨s2, hs2, heq⟩
      obtain ⟨w1, hw1, c2, hc2⟩ : ∃ w1, m.bestEnd pre' s2 = some w1 ∧
          ∃ c2, omul (edgeVal m s2 nxt) (emitVal m nxt o) = some c2 := by
        cases hb : m.bestEnd pre' s2 with
        | none =>
          rw [hb, omul_none_left] at heq
          cases heq
        | some w1 =>
          cases hc : omul (edgeVal m s2 nxt) (emitVal m nxt o) with
          | none =>
            rw [hb, hc, omul_none_right] at heq
            cases heq
          | some c2 => exact ⟨w1, rfl, c2, rfl⟩
      obtain ⟨t2, e2, het, hee⟩ : ∃ t2 e2, edgeVal m s2 nxt = some t2 ∧
          emitVal m nxt o = some e2 := by
        cases hE : edgeVal m s2 nxt with
        | none =>
          rw [hE, omul_none_left] at hc2
          cases hc2
        | some t2 =>
          cases hM : emitVal m nxt o with
          | none =>
            rw [hE, hM, omul_none_right] at hc2
            cases hc2
          | some e2 => exact ⟨t2, e2, rfl, rfl⟩
      have hconn2 : m.connected s2 nxt = true := connected_of_edgeVal het
      have hsv_ne : m.survivors nxt (colSpec m pre') ≠ [] := by
        intro hempty
        have hin : (s2, m.bestEnd pre' s2) ∈ m.survivors nxt (colSpec m pre') := by
          rw [mem_survivors_iff]
          refine ⟨colSpec_mem_of_name m pre' s2 hs2, ?_, hconn2⟩
          rw [hw1]
          rfl
        rw [hempty] at hin
        cases hin
      obtain ⟨b, hpk, hbmem, _⟩ :=
        pyMaxKey_spec (m.survivors nxt (colSpec m pre')) hsv_ne
      rw [mem_survivors_iff] at hbmem
      obtain ⟨hbc, hbsome, hbconn⟩ := hbmem
      have hbeq : b.2 = m.bestEnd pre' b.1 :=
        congrArg Prod.snd (colSpec_elem_eq m pre' b hbc)
      obtain ⟨wb, hwb⟩ : ∃ wb, m.bestEnd pre' b.1 = some wb := by
        cases hx : m.bestEnd pre' b.1 with
        | none =>
          rw [hbeq, hx] at hbsome
          cases hbsome
        | some wb => exact ⟨wb, rfl⟩
      obtain ⟨path, v, hvb, hlen, hpsc⟩ := ih hpre' b.1 wb hwb
      obtain ⟨stb, tb, _, _, _, hetb⟩ := edgeVal_of_connected hbconn
      refine ⟨b.1 :: path, v * (tb * e2), ?_, by simpa using hlen, ?_⟩
      · rw [hmm.viterbiBack, hpk]
        dsimp only
        rw [hvb]
      · rw [List.reverse_cons,
          pathScore_snoc m path.reverse b.1 nxt o pre'
            (by rw [List.length_reverse]; exact hlen),
          hpsc, hetb, hee]
        rfl

lemma emitVal_known {m : hmm R} {s o : String} {em : R}
    (h : emitVal m s o = some em) : (m.getState s).isSome := by
  unfold emitVal at h
  cases hg : m.getState s with
  | none => rw [hg] at h; cases h
  | some st => rfl

lemma pathScoreFrom_known (m : hmm R) : ∀ (ss os : List String) (a : String)
    (v : R), pathScoreFrom m a ss os = some v →
    ∀ x ∈ ss, (m.getState x).isSome := by
  intro ss
  induction ss with
  | nil => intro os a v _ x hx; cases hx
  | cons s ss' ih =>
    intro os a v h x hx
    cases os with
    | nil =>
      rw [show pathScoreFrom m a (s :: ss') [] = none from rfl] at h
      cases h
    | cons o os' =>
      rw [pathScoreFrom] at h
      obtain ⟨⟨em, hem⟩, r, hr⟩ : (∃ em, emitVal m s o = some em) ∧
          ∃ r, pathScoreFrom m s ss' os' = some r := by
        constructor
        · cases hM : emitVal m s o with
          | none =>
            rw [hM, omul_none_right, omul_none_left] at h
            cases h
          | some em => exact ⟨em, rfl⟩
        · cases hR : pathScoreFrom m s ss' os' with
          | none =>
            rw [hR, omul_none_right] at h
            cases h
          | some r => exact ⟨r, rfl⟩
      rcases List.mem_cons.mp hx with h1 | h1
      · rw [h1]
        exact emitVal_known hem
      · exact ih os' s r hr x h1

lemma pathScore_known (m : hmm R) (seq obs : List String) (v : R)
    (h : pathScore m seq obs = some v) : ∀ x ∈ seq, (m.getState x).isSome := by
  cases seq with
  | nil => intro x hx; cases hx
  | cons s ss =>
    cases obs with
    | nil =>
      rw [show pathScore m (s :: ss) [] = none from rfl] at h
      cases h
    | cons o os =>
      rw [pathScore] at h
      obtain ⟨⟨em, hem⟩, r, hr⟩ : (∃ em, emitVal m s o = some em) ∧
          ∃ r, pathScoreFrom m s ss os = some r := by
        constructor
        · cases hM : emitVal m s o with
          | none =>
            rw [hM, omul_none_right, omul_none_left] at h
            cases h
          | some em => exact ⟨em, rfl⟩
        · cases hR : pathScoreFrom m s ss os with
          | none =>
            rw [hR, omul_none_right] at h
            cases h
          | some r => exact ⟨r, rfl⟩
      intro x hx
      rcases List.mem_cons.mp hx with h1 | h1
      · rw [h1]
        exact emitVal_known hem
      · exact pathScoreFrom_known m ss os s r hr x h1

lemma score_eq_pathScore2 (m : hmm R) (hw : m.wfP) (hwt : m.wfPosTrans)
    (hterm : m.terminal_state = false) (seq os : List String) (hne : seq ≠ [])
    (hlen : seq.length = os.length)
    (hknown : ∀ x ∈ seq, (m.getState x).isSome) :
    m.score seq os = .ok (pathScore m seq os) := by
  cases seq with
  | nil => exact absurd rfl hne
  | cons s0 ss => exact score_eq_pathScore m hw hwt hterm s0 ss os hlen hknown

lemma oLe_some_some {a b : R} (h : oLe (some a) (some b)) : a ≤ b := h

lemma viterbi_master (m : hmm R) (hw : m.wfP) (hwt : m.wfPosTrans)
    (hterm : m.terminal_state = false) (observed : List String)
    (hobs : observed ≠ [])
    (hex : ∃ seq v, seq.length = observed.length ∧
      m.score seq observed = .ok (some v)) :
    ∃ (path : List String) (p v2 : R) (bseq : List String),
      m.viterbi_path observed = .ok (path, some p) ∧
      m.enumBest observed = .ok (some (bseq, p)) ∧
      m.score path observed = .ok (some v2) ∧ v2 ≤ p := by
  obtain ⟨seq, v, hslen, hsc⟩ := hex
  have hseqne : seq ≠ [] := by
    intro h
    rw [h] at hslen
    exact hobs (List.eq_nil_of_length_eq_zero hslen.symm)
  have hknown : ∀ x ∈ seq, (m.getState x).isSome :=
    score_ok_some_known m seq observed v hsc
  have hps : pathScore m seq observed = some v := by
    have h2 := score_eq_pathScore2 m hw hwt hterm seq observed hseqne hslen hknown
    rw [h2] at hsc
    exact Except.ok.inj hsc
  have hprod : seq ∈ seqProduct m.stateNames observed.length :=
    mem_seqProduct_iff.mpr ⟨hslen,
      fun x hx => (getState_isSome_iff_mem m x).mp (hknown x hx)⟩
  have hvM : oLe (some v)
      (foldMax ((seqProduct m.stateNames observed.length).map
        (fun sq => pathScore m sq observed))) := by
    have hmm2 : pathScore m seq observed ∈
        (seqProduct m.stateNames observed.length).map
          (fun sq => pathScore m sq observed) :=
      List.mem_map.mpr ⟨seq, hprod, rfl⟩
    rw [hps] at hmm2
    exact foldMax_oLe_of_mem hmm2
  obtain ⟨p, hM⟩ : ∃ p, foldMax ((seqProduct m.stateNames observed.length).map
      (fun sq => pathScore m sq observed)) = some p := by
    cases hMx : foldMax ((seqProduct m.stateNames observed.length).map
        (fun sq => pathScore m sq observed)) with
    | none =>
      rw [hMx] at hvM
      cases hvM
    | some p => exact ⟨p, rfl⟩
  have hstates_ne : m.states ≠ [] := by
    intro h0
    have hx := hknown seq.head! ?hm
    case hm =>
      cases seq with
      | nil => exact absurd rfl hseqne
      | cons a l => exact List.mem_cons_self _ _
    unfold hmm.getState at hx
    rw [h0] at hx
    cases hx
  have hcolne : colSpec m observed ≠ [] := by
    intro h0
    apply hstates_ne
    unfold colSpec at h0
    exact List.map_eq_nil.mp h0
  obtain ⟨best, hpk, hbmem, hbval⟩ := pyMaxKey_spec (colSpec m observed) hcolne
  have hbval2 : best.2 = some p := by
    rw [hbval]
    have hmapmap : (colSpec m observed).map (fun x => x.2) =
        m.stateNames.map (fun s => m.bestEnd observed s) := by
      unfold colSpec hmm.stateNames
      rw [List.map_map, List.map_map]
      rfl
    rw [hmapmap, ← foldMax_product_eq_bestEnds m observed hobs]
    exact hM
  have hbbe : m.bestEnd observed best.1 = some p := by
    have h2 := congrArg Prod.snd (colSpec_elem_eq m observed best hbmem)
    rw [hbval2] at h2
    exact h2.symm
  obtain ⟨backs, v2, hvb, hblen, hbscore⟩ :=
    viterbiBack_spec m hw observed hobs best.1 p hbbe
  have hpathne : backs.reverse ++ [best.1] ≠ [] := by simp
  have hpathlen : (backs.reverse ++ [best.1]).length = observed.length := by
    rw [List.length_append, List.length_reverse]
    simpa using hblen
  have hpathknown : ∀ x ∈ backs.reverse ++ [best.1], (m.getState x).isSome :=
    pathScore_known m _ observed v2 hbscore
  have hscpath : m.score (backs.reverse ++ [best.1]) observed = .ok (some v2) := by
    rw [score_eq_pathScore2 m hw hwt hterm _ observed hpathne hpathlen hpathknown,
      hbscore]
  have hv2p : v2 ≤ p := by
    have hmm3 : pathScore m (backs.reverse ++ [best.1]) observed ∈
        (seqProduct m.stateNames observed.length).map
          (fun sq => pathScore m sq observed) :=
      List.mem_map.mpr ⟨backs.reverse ++ [best.1],
        mem_seqProduct_iff.mpr ⟨hpathlen,
          fun x hx => (getState_isSome_iff_mem m x).mp (hpathknown x hx)⟩, rfl⟩
    rw [hbscore] at hmm3
    have := foldMax_oLe_of_mem hmm3
    rw [hM] at this
    exact oLe_some_some this
  have hvit : m.viterbi_path observed =
      .ok (backs.reverse ++ [best.1], some p) := by
    unfold hmm.viterbi_path
    rw [trellis_of_not_terminal m hw observed hterm]
    dsimp only
    rw [fullCols_getLast m observed hobs]
    dsimp only
    rw [hpk]
    dsimp only
    rw [hvb]
    dsimp only
    rw [List.reverse_cons, hbval2]
  obtain ⟨henum, hsnd⟩ := enumBest_spec m hw hwt hterm observed hobs
  obtain ⟨bseq, hbseq⟩ : ∃ bseq,
      (seqProduct m.stateNames observed.length).foldl
        (fun bst sq => enumStep bst sq (pathScore m sq observed)) none =
        some (bseq, p) := by
    rw [hM] at hsnd
    cases hfold : (seqProduct m.stateNames observed.length).foldl
        (fun bst sq => enumStep bst sq (pathScore m sq observed)) none with
    | none =>
      rw [hfold] at hsnd
      cases hsnd
    | some bp =>
      rw [hfold] at hsnd
      have hp2 : bp.2 = p := Option.some.inj hsnd
      exact ⟨bp.1, by rw [← hp2]⟩
  refine ⟨backs.reverse ++ [best.1], p, v2, bseq, hvit, ?_, hscpath, hv2p⟩
  rw [henum, hbseq]

/-- C1 (amended): for a well-formed model with *no* implied terminal state
and no stored zero transition probabilities, and any non-empty observation
admitting at least one numerically scoring state sequence of the same
length, the log-probability returned by `viterbi_path` equals the maximum
score over the full Cartesian product enumerated by `enumerate` (the
enumerator's labelled best score).  As stated the claim is false: with an
implied terminal state the trellis multiplies in `p_termination` while
`score` does not (see `viterbi_vs_enumeration_counterexample`), and the
returned state sequence can differ from the enumerator's labelled best even
when the maximum is unique (see `viterbi_round_trip_counterexample`). -/
theorem viterbi_value_equals_enumeration_maximum (m : hmm R) (hw : m.wfP)
    (hwt : m.wfPosTrans) (hterm : m.terminal_state = false)
    (observed : List String) (hobs : observed ≠ [])
    (hex : ∃ seq v, seq.length = observed.length ∧
      m.score seq observed = .ok (some v)) :
    ∃ (path bseq : List String) (p : R),
      m.viterbi_path observed = .ok (path, some p) ∧
      m.enumBest observed = .ok (some (bseq, p)) := by
  obtain ⟨path, p, v2, bseq, h1, h2, _, _⟩ :=
    viterbi_master m hw hwt hterm observed hobs hex
  exact ⟨path, bseq, p, h1, h2⟩

/-- A one-state model with a self loop; every probability is 0 or 1. -/
def mLoopA : hmm ℤ := hmm.init ["x"] [⟨"A", 1, [("x", 1)], [("A", 1)], 0⟩]

theorem viterbi_value_equals_enumeration_maximum_witness :
    ∃ (path bseq : List String) (p : ℤ),
      mLoopA.viterbi_path ["x", "x"] = .ok (path, some p) ∧
      mLoopA.enumBest ["x", "x"] = .ok (some (bseq, p)) :=
  viterbi_value_equals_enumeration_maximum mLoopA (by decide) (by decide)
    (by decide) ["x", "x"] (by decide) ⟨["A", "A"], 1, by decide, by decide⟩

/-- A terminal-state model: `A` starts, emits `"x"` with probability 9/10
and terminates with probability 1/2. -/
def mTermHalf : hmm ℚ :=
  hmm.init ["x"] [⟨"A", 1, [("x", 9/10)], [], 1/2⟩]

/-- C1 counterexample: with an implied terminal state, `viterbi_path`
reports `log10(9/20)` (the trellis multiplies in `p_termination`) while the
best - indeed the only - scoring sequence under `score`, as enumerated by
`enumerate`, scores `log10(9/10)`. -/
theorem viterbi_vs_enumeration_counterexample :
    mTermHalf.viterbi_path ["x"] = .ok (["A"], some (9/20)) ∧
    mTermHalf.enumBest ["x"] = .ok (some (["A"], (9:ℚ)/10)) ∧
    ¬ ((9:ℚ)/20 = (9:ℚ)/10) := by
  with_unfolding_all decide

/-- C3 (amended): under the hypotheses of the amended C1, scoring the state
sequence returned by `viterbi_path` with `score` yields a numeric result
that is *at most* the log-probability returned by `viterbi_path`.  Equality
fails in general: the backward pass selects, among states with an edge to
the chosen next state, the one with the best column score, ignoring the
transition probability, so the returned sequence need not attain the
returned maximum (see `viterbi_round_trip_counterexample`). -/
theorem viterbi_round_trip_score_at_most (m : hmm R) (hw : m.wfP)
    (hwt : m.wfPosTrans) (hterm : m.terminal_state = false)
    (observed : List String) (hobs : observed ≠ [])
    (hex : ∃ seq v, seq.length = observed.length ∧
      m.score seq observed = .ok (some v)) :
    ∃ (path : List String) (p v : R),
      m.viterbi_path observed = .ok (path, some p) ∧
      m.score path observed = .ok (some v) ∧ v ≤ p := by
  obtain ⟨path, p, v2, _, h1, _, h3, h4⟩ :=
    viterbi_master m hw hwt hterm observed hobs hex
  exact ⟨path, p, v2, h1, h3, h4⟩

theorem viterbi_round_trip_score_at_most_witness :
    ∃ (path : List String) (p v : ℤ),
      mLoopA.viterbi_path ["x"] = .ok (path, some p) ∧
      mLoopA.score path ["x"] = .ok (some v) ∧ v ≤ p :=
  viterbi_round_trip_score_at_most mLoopA (by decide) (by decide) (by decide)
    ["x"] (by decide) ⟨["A"], 1, by decide, by decide⟩

/-- A three-state model in which the best path is `A, C` (score 9/25) but
the backward pass prefers `B` (better column score, worse edge into `C`). -/
def mBackBug : hmm ℚ :=
  hmm.init ["x"]
    [⟨"A", 2/5, [("x", 1)], [("A", 1/10), ("C", 9/10)], 0⟩,
     ⟨"B", 3/5, [("x", 1)], [("C", 1/10)], 0⟩,
     ⟨"C", 0, [("x", 1)], [("C", 1)], 0⟩]

/-- C3 counterexample: `viterbi_path` returns the sequence `B, C` with the
(correct) maximum log-probability `log10(9/25)`, but scoring `B, C` with
`score` gives `log10(3/50)`, which differs - the round trip does not
reproduce the returned value.  (The unique best sequence is `A, C`.) -/
theorem viterbi_round_trip_counterexample :
    mBackBug.viterbi_path ["x", "x"] = .ok (["B", "C"], some (9/25)) ∧
    mBackBug.score ["B", "C"] ["x", "x"] = .ok (some (3/50)) ∧
    ¬ ((3:ℚ)/50 = (9:ℚ)/25) := by
  with_unfolding_all decide
